import Mathlib

/-!
# Turn-resolution engine of `src/src/battle.hpp`

A shallow embedding of the classes `BattleEvent` and `Battle`.

* A `Creature*` is a reference `Ref` into a heap of creature objects; the
  roster `Battle::combatants` is a list of references, so two roster entries
  may carry the same display name and still be different combatants.
* `Creature::attack` (creature.hpp), `Dialogue::activate` (dialogue.hpp) and
  `std::sort` are not part of the file: the damage model and the sort are
  parameters, the answers given to the prompts are a stream of integers.
  What holds for every `std::sort` is stated for a sort that meets the
  contract of the standard; what depends on the algorithm is stated for
  `std.__sort`, the `std::sort` of libstdc++.
* Standard output is the list of lines written by `Battle` itself, each
  without its terminating newline.
* Undefined behaviour of the C++ code (dereferencing `end()`, indexing the
  roster out of range, calling `attack` on a null target) is the result
  `none`.
-/

set_option linter.dupNamespace false

namespace RPG

/-- A `Creature*`: the address of a creature object. -/
abbrev Ref := Nat

/-- The fields of `Creature` that `battle.hpp` reads or writes. -/
structure Creature where
  id : String
  name : String
  hp : Int
  agility : Int
  deriving DecidableEq, Repr, Inhabited

/-- The creature objects, by address. -/
abbrev Heap := Ref → Creature

/-- Modelled from the spec: the member function `Creature::attack` of the missing
`creature.hpp`; `attack heap source target` is the returned damage and the
heap after the call (`source->attack(target)`). -/
abbrev Attack := Heap → Ref → Ref → Int × Heap

/-- Modelled from the spec: the class `Dialogue` of the missing `dialogue.hpp`,
a prompt string with an ordered list of option labels. -/
structure Dialogue where
  description : String
  choices : List String
  deriving DecidableEq, Repr

/-- Modelled from the spec: `Dialogue::addChoice` appends one more option. -/
def Dialogue.addChoice (d : Dialogue) (choice : String) : Dialogue :=
  { d with choices := d.choices ++ [choice] }

/-- The enumeration `BattleEventType`. -/
inductive BattleEventType where
  | ATTACK
  | DEFEND
  deriving DecidableEq, Repr

/-- The class `BattleEvent`; `target` is a nullable pointer. -/
structure BattleEvent where
  source : Ref
  target : Option Ref
  type : BattleEventType
  deriving DecidableEq, Repr

/-- Everything a `Battle` member function can read or write: the creature
objects, the members `combatants` and `battleOptions`, the lines written to
`std::cout`, the number of prompts answered so far, and (ghost state, read by
no function) the log of the calls `source->attack(target)`. -/
structure State where
  heap : Heap
  combatants : List Ref
  battleOptions : Dialogue
  out : List String
  prompts : Nat
  attacks : List (Ref × Ref)

/-- Modelled from the spec: `Dialogue::activate` blocks until the user answers and
returns the 1-based selection; `sel n` is the answer given to the `n`-th
prompt of the encounter. -/
def Dialogue.activate (_d : Dialogue) (sel : Nat → Int) (w : State) : Int × State :=
  (sel w.prompts, { w with prompts := w.prompts + 1 })

/-- The display names of the roster, in roster order. -/
def State.displayNames (w : State) : List String :=
  w.combatants.map (fun r => (w.heap r).name)

/-! ## `std::map<std::string, int>` -/

/-- A `std::map<std::string, int>`; the stored counters never go below zero. -/
abbrev NameMap := String → Option Nat

/-- The empty map. -/
def NameMap.empty : NameMap := fun _ => none

/-- `names.count(key)`: 1 when the key is present, else 0. -/
def NameMap.count (m : NameMap) (key : String) : Nat :=
  if (m key).isSome then 1 else 0

/-- Store `v` under `key`. -/
def NameMap.set (m : NameMap) (key : String) (v : Nat) : NameMap :=
  fun k => if k = key then some v else m k

/-- `names[key]`: a missing key is inserted with the value 0; returns the map
after the access and the value found. -/
def NameMap.index (m : NameMap) (key : String) : NameMap × Nat :=
  match m key with
  | some v => (m, v)
  | none => (m.set key 0, 0)

/-! ## `Battle::Battle` -/

/-- Body of the first loop of the constructor (lines 90-96):
`if(names.count(com->name) < 2 && com->id != "player") names[com->name] = names.count(com->name);`.
The two operands of the assignment both touch the map; `rhsFirst = true` is
the C++17 order (right operand first), `rhsFirst = false` evaluates
`names[com->name]` first, as a compiler for an earlier standard may. -/
def Battle.seedName (rhsFirst : Bool) (heap : Heap) (names : NameMap) (com : Ref) : NameMap :=
  if names.count (heap com).name < 2 ∧ (heap com).id ≠ "player" then
    if rhsFirst then
      let v := names.count (heap com).name
      (names.index (heap com).name).1.set (heap com).name v
    else
      let names1 := (names.index (heap com).name).1
      names1.set (heap com).name (names1.count (heap com).name)
  else names

/-- Body of the second loop of the constructor (lines 100-112). -/
def Battle.rename (s : Heap × NameMap) (com : Ref) : Heap × NameMap :=
  let newName := (s.1 com).name
  if s.2.count (s.1 com).name > 0 then
    let a := s.2.index (s.1 com).name
    let newName1 := newName ++ (" (" ++ toString a.2 ++ ")")
    let b := a.1.index (s.1 com).name
    (Function.update s.1 com { s.1 com with name := newName1 },
      b.1.set (s.1 com).name (b.2 + 1))
  else
    (Function.update s.1 com { s.1 com with name := newName }, s.2)

/-- The map `names` after the first loop of the constructor. -/
def Battle.seedNames (rhsFirst : Bool) (heap : Heap) (combatants : List Ref) : NameMap :=
  combatants.foldl (Battle.seedName rhsFirst heap) NameMap.empty

/-- The constructor `Battle::Battle(std::vector<Creature*>&)`. -/
def Battle.Battle (rhsFirst : Bool) (heap : Heap) (combatants : List Ref) : State :=
  let names := Battle.seedNames rhsFirst heap combatants
  let s := combatants.foldl Battle.rename (heap, names)
  { heap := s.1
    combatants := combatants
    battleOptions := { description := "What will you do?", choices := ["Attack", "Defend"] }
    out := []
    prompts := 0
    attacks := [] }

/-! ## `Battle::kill` -/

/-- The member function `Battle::kill`: `std::find`, then `erase` at the position found. -/
def Battle.kill (w : State) (creature : Ref) : State :=
  let pos := w.combatants.indexOf creature
  if pos ≠ w.combatants.length then
    { w with
      out := w.out ++ [(w.heap creature).name ++ " is slain!"]
      combatants := w.combatants.eraseIdx pos }
  else w

/-! ## `BattleEvent::run` and `Battle::next_turn` -/

/-- The member function `BattleEvent::run`. -/
def BattleEvent.run (attack : Attack) (e : BattleEvent) (w : State) : Option (Int × State) :=
  match e.type with
  | BattleEventType.ATTACK =>
    match e.target with
    | some t =>
      let r := attack w.heap e.source t
      some (r.1, { w with heap := r.2, attacks := w.attacks ++ [(e.source, t)] })
    | none => none
  | BattleEventType.DEFEND => some (0, w)

/-- Whether `std::find(a, b, p) != b` for a nullable pointer `p`. -/
def Battle.present (combatants : List Ref) : Option Ref → Bool
  | none => false
  | some t => decide (t ∈ combatants)

/-- The target prompt built at lines 142-150. -/
def Battle.targetSelection (w : State) : Dialogue :=
  w.combatants.foldl
    (fun d target => if (w.heap target).id ≠ "player" then d.addChoice (w.heap target).name else d)
    { description := "Who?", choices := [] }

/-- `this->combatants[n - 1]` for the `int` n returned by the prompt. -/
def Battle.combatantAt (w : State) (n : Int) : Option Ref :=
  if 0 ≤ n - 1 then w.combatants.get? (n - 1).toNat else none

/-- Body of the loop that collects the actions (lines 137-185). -/
def Battle.chooseAction (sel : Nat → Int) (s : State × List BattleEvent) (com : Ref) :
    Option (State × List BattleEvent) :=
  if (s.1.heap com).id = "player" then
    let targetSelection := Battle.targetSelection s.1
    let c := s.1.battleOptions.activate sel s.1
    if c.1 = 2 then
      some (c.2, s.2 ++ [{ source := com, target := none, type := BattleEventType.DEFEND }])
    else
      let t := targetSelection.activate sel c.2
      match Battle.combatantAt t.2 t.1 with
      | some target =>
        some (t.2, s.2 ++ [{ source := com, target := some target, type := BattleEventType.ATTACK }])
      | none => none
  else
    match s.1.combatants.find? (fun a => decide ((s.1.heap a).id = "player")) with
    | some player =>
      some (s.1, s.2 ++ [{ source := com, target := some player, type := BattleEventType.ATTACK }])
    | none => none

/-- The loop `for(auto com : this->combatants)` of `next_turn`, over the
combatants still to visit. -/
def Battle.collect (sel : Nat → Int) : State × List BattleEvent → List Ref →
    Option (State × List BattleEvent)
  | s, [] => some s
  | s, com :: rest =>
    match Battle.chooseAction sel s com with
    | some s1 => Battle.collect sel s1 rest
    | none => none

/-- The switch inside the event loop (lines 193-225) for the event at the
front of the queue. The operands of the output statement at lines 206-211 are
evaluated left to right (C++17): both names are read before `event.run()`
is called. -/
def Battle.resolve (attack : Attack) (w : State) (event : BattleEvent) : Option State :=
  match event.type with
  | BattleEventType.ATTACK =>
    if event.source ∉ w.combatants ∨ Battle.present w.combatants event.target = false then
      some w
    else
      match event.target with
      | none => none
      | some t =>
        match event.run attack w with
        | none => none
        | some r =>
          let w1 : State :=
            { r.2 with
              out := r.2.out ++ [(w.heap event.source).name ++ " attacks " ++ (w.heap t).name
                ++ " for " ++ toString r.1 ++ " damage!"] }
          if (w1.heap t).hp ≤ 0 then some (Battle.kill w1 t) else some w1
  | BattleEventType.DEFEND =>
    some { w with out := w.out ++ [(w.heap event.source).name ++ " defends!"] }

/-- The loop `while(!events.empty())` of `next_turn`: resolve the front event,
pop it, go on with the rest of the queue. -/
def Battle.processEvents (attack : Attack) : State → List BattleEvent → Option State
  | w, [] => some w
  | w, event :: rest =>
    match Battle.resolve attack w event with
    | some w1 => Battle.processEvents attack w1 rest
    | none => none

/-- The comparison passed to `std::sort` at line 133. -/
def Battle.slower (heap : Heap) (a b : Ref) : Bool :=
  decide ((heap a).agility < (heap b).agility)

/-- The roster after line 133. -/
def Battle.schedule (sort : (Ref → Ref → Bool) → List Ref → List Ref) (w : State) : State :=
  { w with combatants := sort (Battle.slower w.heap) w.combatants }

/-- The queue `events` when the collecting loop is done. -/
def Battle.enqueued (sort : (Ref → Ref → Bool) → List Ref → List Ref) (sel : Nat → Int)
    (w : State) : Option (State × List BattleEvent) :=
  Battle.collect sel (Battle.schedule sort w, []) (Battle.schedule sort w).combatants

/-- The member function `Battle::next_turn`. -/
def Battle.next_turn (sort : (Ref → Ref → Bool) → List Ref → List Ref) (attack : Attack)
    (sel : Nat → Int) (w : State) : Option State :=
  match Battle.enqueued sort sel w with
  | some s => Battle.processEvents attack s.1 s.2
  | none => none

/-- The member function `Battle::run`, for at most `fuel` rounds; `none` also
when the rounds are used up with more than one combatant left. -/
def Battle.run (sort : (Ref → Ref → Bool) → List Ref → List Ref) (attack : Attack)
    (sel : Nat → Int) : Nat → State → Option State
  | 0, w => if w.combatants.length > 1 then none else some w
  | fuel + 1, w =>
    if w.combatants.length > 1 then
      match Battle.next_turn sort attack sel w with
      | some w1 => Battle.run sort attack sel fuel w1
      | none => none
    else some w

/-! ## `std::sort` -/

/-- What `std::sort` guarantees for the comparison of line 133: the result is
a rearrangement of the input in which no element is followed by one that
compares less. Nothing is promised about elements that compare equal. -/
def StdSortContract (sort : (Ref → Ref → Bool) → List Ref → List Ref) : Prop :=
  ∀ (heap : Heap) (l : List Ref),
    (sort (Battle.slower heap) l).Perm l ∧
    (sort (Battle.slower heap) l).Pairwise (fun a b => Battle.slower heap b a = false)

/-- One conforming `std::sort`: insertion sort, with which the rounds on the
small rosters below are evaluated. -/
def insertionSort (lt : Ref → Ref → Bool) (l : List Ref) : List Ref :=
  l.insertionSort (fun a b => lt b a = false)

/-! ## Vocabulary of the statements -/

/-- The name the renaming loop gives to a name found in the map with counter `k`. -/
def suffixed (n : String) (k : Nat) : String := n ++ (" (" ++ toString k ++ ")")

/-- How many of the references in `l` carry the display name `n` in `h`. -/
def occurrences (h : Heap) (n : String) (l : List Ref) : Nat :=
  (l.filter (fun x => decide ((h x).name = n))).length

/-- How many non-player references in `l` carry the display name `n` in `h`. -/
def seeders (h : Heap) (n : String) (l : List Ref) : Nat :=
  (l.filter (fun x => decide ((h x).id ≠ "player" ∧ (h x).name = n))).length

/-- Whether the reference `r` is the player in `h`. -/
def isPlayer (h : Heap) (r : Ref) : Bool := decide ((h r).id = "player")

/-! ## Concrete rosters -/

/-- Two goblins and a slime, none of them the player. -/
def goblinsAndSlime : Heap := fun r =>
  match r with
  | 0 => { id := "goblin", name := "Goblin", hp := 10, agility := 3 }
  | 1 => { id := "goblin", name := "Goblin", hp := 10, agility := 3 }
  | _ => { id := "slime", name := "Slime", hp := 5, agility := 1 }

/-- A lone slime that is not the player. -/
def loneSlime : Heap := fun _ => { id := "slime", name := "Slime", hp := 5, agility := 1 }

/-- Two goblins and a player whose display name is "Goblin (1)". -/
def goblinsAndNamesake : Heap := fun r =>
  match r with
  | 0 => { id := "goblin", name := "Goblin", hp := 10, agility := 3 }
  | 1 => { id := "goblin", name := "Goblin", hp := 10, agility := 3 }
  | _ => { id := "player", name := "Goblin (1)", hp := 20, agility := 5 }

/-- A player and two goblins. -/
def playerAndGoblins : Heap := fun r =>
  match r with
  | 0 => { id := "player", name := "Player", hp := 20, agility := 5 }
  | _ => { id := "goblin", name := "Goblin", hp := 10, agility := 3 }

/-- A state whose roster is the two goblins and the slime of `goblinsAndSlime`. -/
def threeFoes : State :=
  { heap := goblinsAndSlime
    combatants := [0, 1, 2]
    battleOptions := { description := "What will you do?", choices := ["Attack", "Defend"] }
    out := []
    prompts := 0
    attacks := [] }

/-- A damage model that takes 10 health from the target and reports 10. -/
def tenDamage : Attack := fun h _ t =>
  (10, Function.update h t { h t with hp := (h t).hp - 10 })

/-- A player (agility 5) and two goblins (agility 3) after construction. -/
def skirmish : State := Battle.Battle true playerAndGoblins [0, 1, 2]

/-- A player slower (agility 1) than the one goblin (agility 2). -/
def slowPlayer : Heap := fun r =>
  match r with
  | 0 => { id := "player", name := "Player", hp := 20, agility := 1 }
  | _ => { id := "goblin", name := "Goblin", hp := 10, agility := 2 }

/-- The battle constructed for the slow player and the goblin. -/
def slowDuel : State := Battle.Battle true slowPlayer [0, 1]

/-- Two goblins of the same agility. -/
def twins : Heap := fun _ => { id := "goblin", name := "Goblin", hp := 10, agility := 3 }

/-- The battle of the twins, before any round. -/
def twinsBattle : State :=
  { heap := twins
    combatants := [0, 1]
    battleOptions := { description := "What will you do?", choices := ["Attack", "Defend"] }
    out := []
    prompts := 0
    attacks := [] }

/-- The roster of the scenario: a player (health 20, agility 5) and a goblin
(health 10, agility 3). -/
def duelHeap : Heap := fun r =>
  match r with
  | 0 => { id := "player", name := "Player", hp := 20, agility := 5 }
  | _ => { id := "goblin", name := "Goblin", hp := 10, agility := 3 }

/-- The battle constructed for the scenario; `rhsFirst` as in `Battle.seedName`. -/
def duel (rhsFirst : Bool) : State := Battle.Battle rhsFirst duelHeap [0, 1]

/-- A player with 10 health (agility 5) and two goblins (agility 3). -/
def frailPlayer : Heap := fun r =>
  match r with
  | 0 => { id := "player", name := "Player", hp := 10, agility := 5 }
  | _ => { id := "goblin", name := "Goblin", hp := 10, agility := 3 }

/-- The battle constructed for the frail player and the two goblins. -/
def frailBattle : State := Battle.Battle true frailPlayer [0, 1, 2]

/-- The assumption on the damage model used for the liveness invariant: a call
`source->attack(target)` leaves every creature other than the target as it
is. -/
def ChangesOnlyTarget (attack : Attack) : Prop :=
  ∀ (h : Heap) (s t r : Ref), r ≠ t → (attack h s t).2 r = h r

/-- The roster holds distinct combatants, all with health above zero. -/
def AllAlive (w : State) : Prop :=
  w.combatants.Nodup ∧ ∀ r ∈ w.combatants, 0 < (w.heap r).hp

/-- A player with 100 health (agility 5) and two goblins (health 10, agility 3). -/
def sturdyPlayer : Heap := fun r =>
  match r with
  | 0 => { id := "player", name := "Player", hp := 100, agility := 5 }
  | _ => { id := "goblin", name := "Goblin", hp := 10, agility := 3 }

/-- The battle constructed for the sturdy player and the two goblins. -/
def sturdyBattle : State := Battle.Battle true sturdyPlayer [0, 1, 2]

/-- A player (health 100, agility 1) and one goblin (health 10, agility 2). -/
def playerAndGoblin : Heap := fun r =>
  match r with
  | 0 => { id := "player", name := "Player", hp := 100, agility := 1 }
  | _ => { id := "goblin", name := "Goblin", hp := 10, agility := 2 }

/-- The battle constructed for a roster that lists the one goblin twice. -/
def goblinTwice : State := Battle.Battle true playerAndGoblin [0, 1, 1]

/-- The answers "Attack", then the second entry. -/
def attackSecond : Nat → Int := fun n => if n = 0 then 1 else 2

/-- A player with 10 health (agility 1) and two goblins (agility 2 and 3). -/
def slowFrailPlayer : Heap := fun r =>
  match r with
  | 0 => { id := "player", name := "Player", hp := 10, agility := 1 }
  | 1 => { id := "goblin", name := "Goblin", hp := 10, agility := 2 }
  | _ => { id := "goblin", name := "Goblin", hp := 10, agility := 3 }

/-- The battle constructed for a roster that lists the player twice, before the
two goblins. -/
def playerTwice : State := Battle.Battle true slowFrailPlayer [0, 0, 1, 2]

/-- A player who enters with health 0 (agility 1) and two goblins (agility 2 and 3). -/
def spentPlayer : Heap := fun r =>
  match r with
  | 0 => { id := "player", name := "Player", hp := 0, agility := 1 }
  | 1 => { id := "goblin", name := "Goblin", hp := 10, agility := 2 }
  | _ => { id := "goblin", name := "Goblin", hp := 10, agility := 3 }

/-- The battle constructed for the spent player and the two goblins. -/
def spentBattle : State := Battle.Battle true spentPlayer [0, 1, 2]

/-- The state in which the first goblin of `threeFoes` has slain the slime. -/
def slimeSlain : State :=
  { heap := (tenDamage goblinsAndSlime 0 2).2
    combatants := [0, 1]
    battleOptions := { description := "What will you do?", choices := ["Attack", "Defend"] }
    out := ["Goblin attacks Slime for 10 damage!", "Slime is slain!"]
    prompts := 0
    attacks := [(0, 2)] }

/-- The invariant of the renaming loop, started from the creatures `h0` and the
map `m0`, when the roster entries `done` have been visited: identities are
untouched; creatures not yet visited are untouched; no key leaves the map;
every visited non-player carries a name `suffixed n k` whose counter `k` is
below the counter now stored for `n`; and two different visited non-players
carry different names. -/
def RenameInv (h0 : Heap) (m0 : NameMap) (done : List Ref) (s : Heap × NameMap) : Prop :=
  (∀ r, (s.1 r).id = (h0 r).id) ∧
  (∀ r, r ∉ done → s.1 r = h0 r) ∧
  (∀ n, m0 n ≠ none → s.2 n ≠ none) ∧
  (∀ r ∈ done, (h0 r).id ≠ "player" →
    ∃ n k c, (s.1 r).name = suffixed n k ∧ s.2 n = some c ∧ k < c) ∧
  (∀ x ∈ done, ∀ y ∈ done, (h0 x).id ≠ "player" → (h0 y).id ≠ "player" → x ≠ y →
    (s.1 x).name ≠ (s.1 y).name)

/-- A roster that lists the first of two goblins twice. -/
def echoRoster : List Ref := [0, 0, 1]

/-! ## `std::sort` of libstdc++

The algorithm of `bits/stl_algo.h` and `bits/stl_heap.h` (GCC): the range is a
list, an iterator is an index into it. A scan that the C++ code leaves
unguarded stops at the end of the list here; for a comparison that is a strict
weak ordering, as the one of line 133, it stops inside the range anyway. -/

namespace std

/-- The value `*(first + i)`. -/
def deref (a : List Ref) (i : Nat) : Ref := a.getD i 0

/-- The call `std::iter_swap(i, j)`. -/
def iter_swap (a : List Ref) (i j : Nat) : List Ref :=
  (a.set i (deref a j)).set j (deref a i)

/-- The helper `__lg(n)`: the position of the highest bit of `n`, for at most
`fuel` halvings. -/
def lgFuel : Nat → Nat → Nat
  | 0, _ => 0
  | fuel + 1, n => if n ≤ 1 then 0 else lgFuel fuel (n / 2) + 1

/-- The helper `std::__lg`. -/
def __lg (n : Nat) : Nat := lgFuel n n

/-- The helper `__move_median_to_first(result, a, b, c, comp)`. -/
def __move_median_to_first (comp : Ref → Ref → Bool) (r : List Ref) (result a b c : Nat) :
    List Ref :=
  if comp (deref r a) (deref r b) then
    if comp (deref r b) (deref r c) then iter_swap r result b
    else if comp (deref r a) (deref r c) then iter_swap r result c
    else iter_swap r result a
  else if comp (deref r a) (deref r c) then iter_swap r result a
  else if comp (deref r b) (deref r c) then iter_swap r result c
  else iter_swap r result b

/-- The loop `while (comp(val, next)) ...` of `__unguarded_linear_insert`, the hole
being at index `last`; then `*last = val`. -/
def linear_insert (comp : Ref → Ref → Bool) (val : Ref) : Nat → List Ref → List Ref
  | 0, a => a.set 0 val
  | next + 1, a =>
    if comp val (deref a next) then linear_insert comp val next (a.set (next + 1) (deref a next))
    else a.set (next + 1) val

/-- The helper `__unguarded_linear_insert(last, comp)`. -/
def __unguarded_linear_insert (comp : Ref → Ref → Bool) (a : List Ref) (last : Nat) : List Ref :=
  linear_insert comp (deref a last) last a

/-- The branch of `__insertion_sort` for `comp(i, first)`: the value at `i` goes to
`first`, the values of `[first, i)` move one place up (`move_backward`). -/
def move_to_front (a : List Ref) (first i : Nat) : List Ref :=
  a.take first ++ deref a i :: ((a.drop first).take (i - first) ++ a.drop (i + 1))

/-- The body of the loop of `__insertion_sort` for the iterator `i`. -/
def insertion_step (comp : Ref → Ref → Bool) (first : Nat) (a : List Ref) (i : Nat) : List Ref :=
  if comp (deref a i) (deref a first) then move_to_front a first i
  else __unguarded_linear_insert comp a i

/-- The helper `__insertion_sort(first, last, comp)`. -/
def __insertion_sort (comp : Ref → Ref → Bool) (a : List Ref) (first last : Nat) : List Ref :=
  if first = last then a
  else (List.range' (first + 1) (last - (first + 1))).foldl (insertion_step comp first) a

/-- The helper `__unguarded_insertion_sort(first, last, comp)`. -/
def __unguarded_insertion_sort (comp : Ref → Ref → Bool) (a : List Ref) (first last : Nat) :
    List Ref :=
  (List.range' first (last - first)).foldl (__unguarded_linear_insert comp) a

/-- The constant `_S_threshold`. -/
def _S_threshold : Nat := 16

/-- The helper `__final_insertion_sort(first, last, comp)`. -/
def __final_insertion_sort (comp : Ref → Ref → Bool) (a : List Ref) (first last : Nat) :
    List Ref :=
  if last - first > _S_threshold then
    __unguarded_insertion_sort comp
      (__insertion_sort comp a first (first + _S_threshold)) (first + _S_threshold) last
  else __insertion_sort comp a first last

/-- The loop `while (comp(first, pivot)) ++first`. -/
def scan_up (comp : Ref → Ref → Bool) (a : List Ref) (pivot : Nat) : Nat → Nat → Nat
  | 0, first => first
  | fuel + 1, first =>
    if comp (deref a first) (deref a pivot) then scan_up comp a pivot fuel (first + 1) else first

/-- The loop `while (comp(pivot, last)) --last`. -/
def scan_down (comp : Ref → Ref → Bool) (a : List Ref) (pivot : Nat) : Nat → Nat
  | 0 => 0
  | last + 1 =>
    if comp (deref a pivot) (deref a (last + 1)) then scan_down comp a pivot last else last + 1

/-- The loop of `__unguarded_partition(first, last, pivot, comp)`; returns the
range and the cut. -/
def partition_loop (comp : Ref → Ref → Bool) (pivot : Nat) :
    Nat → List Ref → Nat → Nat → List Ref × Nat
  | 0, a, first, _ => (a, first)
  | fuel + 1, a, first, last =>
    let first1 := scan_up comp a pivot a.length first
    let last1 := scan_down comp a pivot (last - 1)
    if ¬ first1 < last1 then (a, first1)
    else partition_loop comp pivot fuel (iter_swap a first1 last1) (first1 + 1) last1

/-- The helper `__unguarded_partition(first, last, pivot, comp)`. -/
def __unguarded_partition (comp : Ref → Ref → Bool) (a : List Ref) (first last pivot : Nat) :
    List Ref × Nat :=
  partition_loop comp pivot a.length a first last

/-- The helper `__unguarded_partition_pivot(first, last, comp)`. -/
def __unguarded_partition_pivot (comp : Ref → Ref → Bool) (a : List Ref) (first last : Nat) :
    List Ref × Nat :=
  let mid := first + (last - first) / 2
  __unguarded_partition comp (__move_median_to_first comp a first (first + 1) mid (last - 1))
    (first + 1) last first

/-- The loop of `__push_heap(first, holeIndex, topIndex, value, comp)`; then
`*(first + holeIndex) = value`. -/
def push_heap_loop (comp : Ref → Ref → Bool) (first topIndex : Nat) (value : Ref) :
    Nat → List Ref → Nat → List Ref
  | 0, a, holeIndex => a.set (first + holeIndex) value
  | fuel + 1, a, holeIndex =>
    let parent := (holeIndex - 1) / 2
    if holeIndex > topIndex ∧ comp (deref a (first + parent)) value = true then
      push_heap_loop comp first topIndex value fuel
        (a.set (first + holeIndex) (deref a (first + parent))) parent
    else a.set (first + holeIndex) value

/-- The helper `__push_heap(first, holeIndex, topIndex, value, comp)`. -/
def __push_heap (comp : Ref → Ref → Bool) (a : List Ref) (first holeIndex topIndex : Nat)
    (value : Ref) : List Ref :=
  push_heap_loop comp first topIndex value (holeIndex + 1) a holeIndex

/-- The first loop of `__adjust_heap`; returns the range, `holeIndex` and
`secondChild`. -/
def adjust_heap_loop (comp : Ref → Ref → Bool) (first len : Nat) :
    Nat → List Ref → Nat → Nat → List Ref × Nat × Nat
  | 0, a, holeIndex, secondChild => (a, holeIndex, secondChild)
  | fuel + 1, a, holeIndex, secondChild =>
    if secondChild < (len - 1) / 2 then
      let c := 2 * (secondChild + 1)
      let c1 := if comp (deref a (first + c)) (deref a (first + (c - 1))) then c - 1 else c
      adjust_heap_loop comp first len fuel (a.set (first + holeIndex) (deref a (first + c1))) c1 c1
    else (a, holeIndex, secondChild)

/-- The helper `__adjust_heap(first, holeIndex, len, value, comp)`. -/
def __adjust_heap (comp : Ref → Ref → Bool) (a : List Ref) (first holeIndex len : Nat)
    (value : Ref) : List Ref :=
  let s := adjust_heap_loop comp first len len a holeIndex holeIndex
  if len % 2 = 0 ∧ 2 ≤ len ∧ s.2.2 = (len - 2) / 2 then
    let c := 2 * (s.2.2 + 1)
    __push_heap comp (s.1.set (first + s.2.1) (deref s.1 (first + (c - 1)))) first (c - 1)
      holeIndex value
  else __push_heap comp s.1 first s.2.1 holeIndex value

/-- The helper `__pop_heap(first, last, result, comp)`. -/
def __pop_heap (comp : Ref → Ref → Bool) (a : List Ref) (first last result : Nat) : List Ref :=
  __adjust_heap comp (a.set result (deref a first)) first 0 (last - first) (deref a result)

/-- The loop of `__make_heap`, from `parent` down to 0. -/
def make_heap_loop (comp : Ref → Ref → Bool) (first len : Nat) : Nat → List Ref → List Ref
  | 0, a => __adjust_heap comp a first 0 len (deref a first)
  | parent + 1, a =>
    make_heap_loop comp first len parent
      (__adjust_heap comp a first (parent + 1) len (deref a (first + (parent + 1))))

/-- The helper `__make_heap(first, last, comp)`. -/
def __make_heap (comp : Ref → Ref → Bool) (a : List Ref) (first last : Nat) : List Ref :=
  if last - first < 2 then a
  else make_heap_loop comp first (last - first) ((last - first - 2) / 2) a

/-- The helper `__sort_heap(first, last, comp)`, `last` given as `first + n`. -/
def sort_heap_loop (comp : Ref → Ref → Bool) (first : Nat) : Nat → List Ref → List Ref
  | 0, a => a
  | n + 1, a =>
    if n + 1 > 1 then sort_heap_loop comp first n (__pop_heap comp a first (first + n) (first + n))
    else a

/-- The helper `__sort_heap(first, last, comp)`. -/
def __sort_heap (comp : Ref → Ref → Bool) (a : List Ref) (first last : Nat) : List Ref :=
  sort_heap_loop comp first (last - first) a

/-- The helper `__heap_select(first, middle, last, comp)`. -/
def __heap_select (comp : Ref → Ref → Bool) (a : List Ref) (first middle last : Nat) :
    List Ref :=
  (List.range' middle (last - middle)).foldl
    (fun r i => if comp (deref r i) (deref r first) then __pop_heap comp r first middle i else r)
    (__make_heap comp a first middle)

/-- The helper `__partial_sort(first, middle, last, comp)`. -/
def __partial_sort (comp : Ref → Ref → Bool) (a : List Ref) (first middle last : Nat) :
    List Ref :=
  __sort_heap comp (__heap_select comp a first middle last) first middle

/-- The helper `__introsort_loop(first, last, depth_limit, comp)`. -/
def __introsort_loop (comp : Ref → Ref → Bool) : Nat → List Ref → Nat → Nat → List Ref
  | 0, a, first, last =>
    if last - first > _S_threshold then __partial_sort comp a first last last else a
  | depth_limit + 1, a, first, last =>
    if last - first > _S_threshold then
      let p := __unguarded_partition_pivot comp a first last
      __introsort_loop comp depth_limit
        (__introsort_loop comp depth_limit p.1 p.2 last) first p.2
    else a

/-- The function `std::__sort(first, last, comp)` on the whole range. -/
def __sort (comp : Ref → Ref → Bool) (a : List Ref) : List Ref :=
  if a.length = 0 then a
  else
    __final_insertion_sort comp (__introsort_loop comp (__lg a.length * 2) a 0 a.length)
      0 a.length

end std

/-- The scan of `__unguarded_linear_insert` on the sorted part read backwards:
`val` passes every value it compares less than. -/
def insert_reversed (comp : Ref → Ref → Bool) (val : Ref) : List Ref → List Ref
  | [] => [val]
  | y :: ys => if comp val y then y :: insert_reversed comp val ys else val :: y :: ys

/-- The sorted part after `__unguarded_linear_insert` has put `val` into it. -/
def insert_back (comp : Ref → Ref → Bool) (val : Ref) (sorted : List Ref) : List Ref :=
  (insert_reversed comp val sorted.reverse).reverse

/-- The sorted part after one pass of the loop of `__insertion_sort`. -/
def insert_next (comp : Ref → Ref → Bool) (sorted : List Ref) (val : Ref) : List Ref :=
  if comp val (std.deref sorted 0) then val :: sorted else insert_back comp val sorted

/-- The list `sorted` is the list `original` sorted by agility with ties left in
their order: a rearrangement, in non-decreasing agility, in which two values
of equal agility stand as they stood in `original`. -/
def StablySorted (heap : Heap) (original sorted : List Ref) : Prop :=
  sorted.Perm original ∧
  sorted.Pairwise (fun a b => (heap a).agility ≤ (heap b).agility) ∧
  ∀ a b, (heap a).agility = (heap b).agility → [a, b].Sublist original → [a, b].Sublist sorted

/-- A player and sixteen goblins, all of agility 3. -/
def crowdHeap : Heap := fun r =>
  match r with
  | 0 => { id := "player", name := "Player", hp := 100, agility := 3 }
  | _ => { id := "goblin", name := "Goblin", hp := 10, agility := 3 }

/-- The battle constructed for the player and the sixteen goblins. -/
def crowd : State :=
  Battle.Battle true crowdHeap [0, 1, 2, 3, 4, 5, 6, 7, 8, 9, 10, 11, 12, 13, 14, 15, 16]

/-! ## Decimal rendering of the counters -/

theorem digitChar_inj : ∀ i < 10, ∀ j < 10, Nat.digitChar i = Nat.digitChar j → i = j := by
  decide

theorem digitChar_ne_paren : ∀ i < 10, Nat.digitChar i ≠ '(' := by
  decide

theorem toDigitsCore_append (n : Nat) :
    ∀ fuel, n < fuel → ∀ ds, Nat.toDigitsCore 10 fuel n ds = Nat.toDigits 10 n ++ ds := by
  induction n using Nat.strong_induction_on with
  | _ n ih =>
    intro fuel hf ds
    obtain ⟨f, rfl⟩ : ∃ f, fuel = f + 1 := ⟨fuel - 1, by omega⟩
    unfold Nat.toDigits
    simp only [Nat.toDigitsCore]
    by_cases h0 : n / 10 = 0
    · simp [h0]
    · simp only [h0, if_false]
      have hlt : n / 10 < n := by omega
      rw [ih (n / 10) hlt f (by omega), ih (n / 10) hlt n hlt]
      simp

theorem toDigits_step (n : Nat) :
    Nat.toDigits 10 n =
      if n / 10 = 0 then [Nat.digitChar (n % 10)]
      else Nat.toDigits 10 (n / 10) ++ [Nat.digitChar (n % 10)] := by
  conv_lhs => unfold Nat.toDigits
  simp only [Nat.toDigitsCore]
  by_cases h0 : n / 10 = 0
  · simp [h0]
  · simp only [h0, if_false]
    exact toDigitsCore_append (n / 10) n (by omega) _

theorem toDigits_ne_nil (n : Nat) : Nat.toDigits 10 n ≠ [] := by
  rw [toDigits_step]; split <;> simp

theorem toDigits_no_paren (n : Nat) : '(' ∉ Nat.toDigits 10 n := by
  induction n using Nat.strong_induction_on with
  | _ n ih =>
    rw [toDigits_step]
    have hd := digitChar_ne_paren (n % 10) (Nat.mod_lt _ (by decide))
    by_cases h0 : n / 10 = 0
    · simp [h0, hd.symm]
    · simp only [h0, if_false, List.mem_append, List.mem_singleton, not_or]
      exact ⟨ih (n / 10) (by omega), hd.symm⟩

theorem toDigits_inj (a : Nat) : ∀ b, Nat.toDigits 10 a = Nat.toDigits 10 b → a = b := by
  induction a using Nat.strong_induction_on with
  | _ a ih =>
    intro b hab
    rw [toDigits_step a, toDigits_step b] at hab
    have ha := Nat.mod_lt a (show 0 < 10 by decide)
    have hb := Nat.mod_lt b (show 0 < 10 by decide)
    by_cases h0 : a / 10 = 0 <;> by_cases h1 : b / 10 = 0
    · simp only [h0, h1, if_true, List.cons.injEq, and_true] at hab
      have := digitChar_inj _ ha _ hb hab
      omega
    · simp only [h0, h1, if_true, if_false] at hab
      have hl := congrArg List.length hab
      have := List.length_pos.mpr (toDigits_ne_nil (b / 10))
      simp only [List.length_append, List.length_singleton, List.length_cons,
        List.length_nil] at hl
      omega
    · simp only [h0, h1, if_true, if_false] at hab
      have hl := congrArg List.length hab
      have := List.length_pos.mpr (toDigits_ne_nil (a / 10))
      simp only [List.length_append, List.length_singleton, List.length_cons,
        List.length_nil] at hl
      omega
    · simp only [h0, h1, if_false] at hab
      have h2 := List.append_inj' hab rfl
      have hq := ih (a / 10) (by omega) (b / 10) h2.1
      have hr := digitChar_inj _ ha _ hb (by simpa using h2.2)
      omega

theorem toString_nat_data (k : Nat) : (toString k).data = Nat.toDigits 10 k := rfl

example : (" (" : String).data = [' ', '('] := rfl

theorem suffixed_data (n : String) (k : Nat) :
    (suffixed n k).data = (n.data ++ [' ']) ++ '(' :: (Nat.toDigits 10 k ++ [')']) := by
  unfold suffixed
  simp only [String.data_append, toString_nat_data]
  simp

theorem split_at_paren (x y d e : List Char) (hd : '(' ∉ d) (he : '(' ∉ e)
    (h : x ++ '(' :: d = y ++ '(' :: e) : x = y ∧ d = e := by
  rcases List.append_eq_append_iff.mp h with ⟨a, hy, hda⟩ | ⟨c, hx, hec⟩
  · cases a with
    | nil => simp at hy hda; exact ⟨hy.symm, hda⟩
    | cons a0 a1 =>
      simp only [List.cons_append, List.cons.injEq] at hda
      exact absurd (by rw [hda.2]; simp) hd
  · cases c with
    | nil => simp at hx hec; exact ⟨hx, hec.symm⟩
    | cons c0 c1 =>
      simp only [List.cons_append, List.cons.injEq] at hec
      exact absurd (by rw [hec.2]; simp) he

theorem suffixed_inj (n1 n2 : String) (k1 k2 : Nat) (h : suffixed n1 k1 = suffixed n2 k2) :
    n1 = n2 ∧ k1 = k2 := by
  have hd := congrArg String.data h
  rw [suffixed_data, suffixed_data] at hd
  have hp : ∀ k, '(' ∉ Nat.toDigits 10 k ++ [')'] := by
    intro k
    simp only [List.mem_append, List.mem_singleton, not_or]
    exact ⟨toDigits_no_paren k, by decide⟩
  obtain ⟨h1, h2⟩ := split_at_paren _ _ _ _ (hp k1) (hp k2) hd
  have h3 := List.append_inj' h1 rfl
  have h4 := List.append_inj' h2 rfl
  exact ⟨String.ext h3.1, toDigits_inj k1 k2 h4.1⟩

theorem suffixed_getLast (n : String) (k : Nat) :
    (suffixed n k).toList.getLast? = some ')' := by
  show (suffixed n k).data.getLast? = some ')'
  rw [suffixed_data]
  rw [show (n.data ++ [' ']) ++ '(' :: (Nat.toDigits 10 k ++ [')'])
      = ((n.data ++ [' ']) ++ '(' :: Nat.toDigits 10 k) ++ [')'] by simp]
  exact List.getLast?_append_of_ne_nil _ (by simp) |>.trans (by simp)

/-! ## The renaming loop -/

theorem rename_eq (h : Heap) (m : NameMap) (c : Ref) :
    Battle.rename (h, m) c =
      match m (h c).name with
      | some v => (Function.update h c { h c with name := suffixed (h c).name v },
          m.set (h c).name (v + 1))
      | none => (h, m) := by
  unfold Battle.rename NameMap.count NameMap.index suffixed
  cases hm : m (h c).name with
  | none => simp [hm]
  | some v => simp [hm]

theorem rename_foldl_frame (l : List Ref) (h : Heap) (m : NameMap) (r : Ref) (hr : r ∉ l) :
    (l.foldl Battle.rename (h, m)).1 r = h r := by
  induction l generalizing h m with
  | nil => rfl
  | cons c t ih =>
    simp only [List.mem_cons, not_or] at hr
    rw [List.foldl_cons, rename_eq]
    cases hm : m (h c).name with
    | none => exact ih h m hr.2
    | some v =>
      simp only
      rw [ih _ _ hr.2, Function.update_noteq hr.1]

theorem rename_foldl_fields (l : List Ref) (h : Heap) (m : NameMap) (r : Ref) :
    ((l.foldl Battle.rename (h, m)).1 r).id = (h r).id ∧
    ((l.foldl Battle.rename (h, m)).1 r).hp = (h r).hp ∧
    ((l.foldl Battle.rename (h, m)).1 r).agility = (h r).agility := by
  induction l generalizing h m with
  | nil => exact ⟨rfl, rfl, rfl⟩
  | cons c t ih =>
    rw [List.foldl_cons, rename_eq]
    cases hm : m (h c).name with
    | none => exact ih h m
    | some v =>
      simp only
      obtain ⟨h1, h2, h3⟩ := ih (Function.update h c { h c with name := suffixed (h c).name v })
        (m.set (h c).name (v + 1))
      rw [h1, h2, h3]
      by_cases hrc : r = c
      · subst hrc; simp
      · simp [Function.update_noteq hrc]

theorem occurrences_congr (h h1 : Heap) (n : String) (l : List Ref)
    (hh : ∀ x ∈ l, h1 x = h x) : occurrences h1 n l = occurrences h n l := by
  unfold occurrences
  congr 1
  apply List.filter_congr
  intro x hx
  rw [hh x hx]

theorem rename_foldl_name (p q : List Ref) (r : Ref) (h : Heap) (m : NameMap)
    (hnd : (p ++ r :: q).Nodup) :
    (((p ++ r :: q).foldl Battle.rename (h, m)).1 r).name =
      match m (h r).name with
      | some b => suffixed (h r).name (b + occurrences h (h r).name p)
      | none => (h r).name := by
  induction p generalizing h m with
  | nil =>
    have hrq : r ∉ q := by
      simp only [List.nil_append, List.nodup_cons] at hnd
      exact hnd.1
    rw [List.nil_append, List.foldl_cons, rename_eq]
    cases hm : m (h r).name with
    | none => simp only; rw [rename_foldl_frame q h m r hrq]
    | some v =>
      simp only
      rw [rename_foldl_frame q _ _ r hrq]
      simp [occurrences]
  | cons c t ih =>
    have hnd1 : (t ++ r :: q).Nodup := by
      simp only [List.cons_append, List.nodup_cons] at hnd
      exact hnd.2
    have hc : c ∉ t ++ r :: q := by
      simp only [List.cons_append, List.nodup_cons] at hnd
      exact hnd.1
    have hcr : r ≠ c := by
      intro e; apply hc; simp [e]
    have hct : ∀ x ∈ t, x ≠ c := by
      intro x hx e; apply hc; simp [← e, hx]
    rw [List.cons_append, List.foldl_cons, rename_eq]
    cases hm : m (h c).name with
    | none =>
      simp only
      rw [ih h m hnd1]
      cases hmr : m (h r).name with
      | none => rfl
      | some b =>
        simp only
        have hne : (h c).name ≠ (h r).name := by
          intro e; rw [e, hmr] at hm; cases hm
        simp [occurrences, List.filter_cons, hne]
    | some v =>
      simp only
      rw [ih _ _ hnd1]
      have hr1 : Function.update h c { h c with name := suffixed (h c).name v } r = h r :=
        Function.update_noteq hcr _ _
      rw [hr1]
      rw [occurrences_congr h _ (h r).name t
        (fun x hx => Function.update_noteq (hct x hx) _ _)]
      by_cases hne : (h c).name = (h r).name
      · have : NameMap.set m (h c).name (v + 1) (h r).name = some (v + 1) := by
          simp [NameMap.set, hne]
        rw [this, ← hne, hm]
        simp only
        congr 1
        simp [occurrences, List.filter_cons]
        omega
      · have : NameMap.set m (h c).name (v + 1) (h r).name = m (h r).name := by
          simp [NameMap.set, Ne.symm hne]
        rw [this]
        cases hmr : m (h r).name with
        | none => rfl
        | some b => simp [occurrences, List.filter_cons, hne]

/-! ## The seeding loop -/

theorem seedName_eq (ord : Bool) (h : Heap) (m : NameMap) (c : Ref) :
    Battle.seedName ord h m c =
      if (h c).id ≠ "player" then
        m.set (h c).name (if ord = true ∧ (m (h c).name).isSome = false then 0 else 1)
      else m := by
  unfold Battle.seedName
  have hlt : NameMap.count m (h c).name < 2 := by
    unfold NameMap.count; split <;> omega
  by_cases hp : (h c).id = "player"
  · simp [hp]
  · simp only [hlt, ne_eq, hp, not_false_eq_true, and_self, if_true]
    funext k
    by_cases hk : k = (h c).name <;> cases ord <;> cases hm : m (h c).name <;>
      simp [NameMap.index, NameMap.count, NameMap.set, hm, hk]

theorem seedName_foldl (ord : Bool) (h : Heap) (l : List Ref) (m : NameMap) (n : String) :
    l.foldl (Battle.seedName ord h) m n =
      if seeders h n l = 0 then m n
      else some (if ord = true ∧ (m n).isSome = false ∧ seeders h n l < 2 then 0 else 1) := by
  induction l generalizing m with
  | nil => simp [seeders]
  | cons c t ih =>
    rw [List.foldl_cons, ih, seedName_eq]
    by_cases hp : (h c).id = "player"
    · simp [hp, seeders, List.filter_cons]
    · by_cases hn : (h c).name = n
      · have hs : seeders h n (c :: t) = seeders h n t + 1 := by
          simp [seeders, List.filter_cons, hp, hn]
        rw [hs]
        simp only [ne_eq, hp, not_false_eq_true, if_true, NameMap.set, hn]
        by_cases ht : seeders h n t = 0
        · simp [ht]
        · have : ¬ seeders h n t + 1 < 2 := by omega
          simp [ht, this]
      · have hs : seeders h n (c :: t) = seeders h n t := by
          simp [seeders, List.filter_cons, hp, hn]
        rw [hs]
        simp [hp, NameMap.set, Ne.symm hn]

theorem seedNames_eq (ord : Bool) (h : Heap) (l : List Ref) (n : String) :
    Battle.seedNames ord h l n =
      if seeders h n l = 0 then none
      else some (if ord = true ∧ seeders h n l < 2 then 0 else 1) := by
  unfold Battle.seedNames
  rw [seedName_foldl]
  simp [NameMap.empty]

/-- The display name of the roster entry `r` after construction. -/
theorem Battle_name (ord : Bool) (h : Heap) (p q : List Ref) (r : Ref)
    (hnd : (p ++ r :: q).Nodup) :
    ((Battle.Battle ord h (p ++ r :: q)).heap r).name =
      if seeders h (h r).name (p ++ r :: q) = 0 then (h r).name
      else suffixed (h r).name
        ((if ord = true ∧ seeders h (h r).name (p ++ r :: q) < 2 then 0 else 1)
          + occurrences h (h r).name p) := by
  unfold Battle.Battle
  simp only
  rw [rename_foldl_name p q r h _ hnd, seedNames_eq]
  split_ifs <;> rfl

/-! ## Uniqueness of the new names -/

theorem prefix_cases (p q p1 q1 : List Ref) (x y : Ref) (hxy : x ≠ y)
    (h : p ++ x :: q = p1 ++ y :: q1) :
    (∃ mid, p1 = p ++ x :: mid) ∨ (∃ mid, p = p1 ++ y :: mid) := by
  rcases List.append_eq_append_iff.mp h with ⟨a, hp1, ha⟩ | ⟨c, hp, hc⟩
  · cases a with
    | nil =>
      simp only [List.nil_append, List.cons.injEq] at ha
      exact absurd ha.1 hxy
    | cons a0 a1 =>
      simp only [List.cons_append, List.cons.injEq] at ha
      left; exact ⟨a1, by rw [hp1, ha.1]⟩
  · cases c with
    | nil =>
      simp only [List.nil_append, List.cons.injEq] at hc
      exact absurd hc.1.symm hxy
    | cons c0 c1 =>
      simp only [List.cons_append, List.cons.injEq] at hc
      right; exact ⟨c1, by rw [hp, hc.1]⟩

theorem occurrences_lt (h : Heap) (p mid : List Ref) (x : Ref) :
    occurrences h (h x).name p < occurrences h (h x).name (p ++ x :: mid) := by
  simp [occurrences, List.filter_cons]

theorem seeders_pos (h : Heap) (l : List Ref) (x : Ref) (hx : x ∈ l)
    (hp : (h x).id ≠ "player") : seeders h (h x).name l ≠ 0 := by
  unfold seeders
  intro h0
  have hmem : x ∈ l.filter (fun y => decide ((h y).id ≠ "player" ∧ (h y).name = (h x).name)) := by
    simp [List.mem_filter, hx, hp]
  rw [List.length_eq_zero.mp h0] at hmem
  cases hmem

theorem two_players (h : Heap) (l : List Ref) (x y : Ref) (hx : x ∈ l)
    (hy : y ∈ l) (hxy : x ≠ y) (hpx : (h x).id = "player") (hpy : (h y).id = "player") :
    2 ≤ (l.filter (fun r => decide ((h r).id = "player"))).length := by
  have hsub : [x, y].Subperm (l.filter (fun r => decide ((h r).id = "player"))) := by
    apply List.subperm_of_subset
    · simp [hxy]
    · intro z hz
      simp only [List.mem_cons, List.mem_singleton, List.not_mem_nil, or_false] at hz
      rcases hz with rfl | rfl <;> simp [List.mem_filter, *]
  simpa using hsub.length_le

/-- Same final name, same combatant: the heart of the uniqueness of display names. -/
theorem Battle_name_inj (ord : Bool) (h : Heap) (l : List Ref) (hnd : l.Nodup)
    (hone : (l.filter (fun r => decide ((h r).id = "player"))).length ≤ 1)
    (hplayer : ∀ r ∈ l, (h r).id = "player" → (h r).name.toList.getLast? ≠ some ')')
    (x y : Ref) (hx : x ∈ l) (hy : y ∈ l)
    (hname : ((Battle.Battle ord h l).heap x).name = ((Battle.Battle ord h l).heap y).name) :
    x = y := by
  by_contra hxy
  obtain ⟨p, q, hl⟩ := List.append_of_mem hx
  obtain ⟨p1, q1, hl1⟩ := List.append_of_mem hy
  have hnx := Battle_name ord h p q x (hl ▸ hnd)
  have hny := Battle_name ord h p1 q1 y (hl1 ▸ hnd)
  rw [← hl] at hnx
  rw [← hl1] at hny
  rw [hnx, hny] at hname
  by_cases sx : seeders h (h x).name l = 0 <;> by_cases sy : seeders h (h y).name l = 0
  · have px : (h x).id = "player" := by
      by_contra hp; exact seeders_pos h l x hx hp sx
    have py : (h y).id = "player" := by
      by_contra hp; exact seeders_pos h l y hy hp sy
    have := two_players h l x y hx hy hxy px py
    omega
  · have px : (h x).id = "player" := by
      by_contra hp; exact seeders_pos h l x hx hp sx
    simp only [sx, sy, if_true, if_false] at hname
    apply hplayer x hx px
    rw [hname]
    exact suffixed_getLast _ _
  · have py : (h y).id = "player" := by
      by_contra hp; exact seeders_pos h l y hy hp sy
    simp only [sx, sy, if_true, if_false] at hname
    apply hplayer y hy py
    rw [← hname]
    exact suffixed_getLast _ _
  · simp only [sx, sy, if_false] at hname
    obtain ⟨hn, hk⟩ := suffixed_inj _ _ _ _ hname
    rw [← hn] at hk
    have hk2 : occurrences h (h x).name p = occurrences h (h x).name p1 := by omega
    rcases prefix_cases p q p1 q1 x y hxy (hl.symm.trans hl1) with ⟨mid, hm⟩ | ⟨mid, hm⟩
    · have := occurrences_lt h p mid x
      rw [← hm] at this
      omega
    · have := occurrences_lt h p1 mid y
      rw [← hm, ← hn] at this
      omega

/-! ## `kill` -/

theorem kill_absent (w : State) (c : Ref) (hc : c ∉ w.combatants) : Battle.kill w c = w := by
  unfold Battle.kill
  simp [List.indexOf_eq_length.mpr hc]

theorem kill_present (w : State) (c : Ref) (hc : c ∈ w.combatants) :
    Battle.kill w c =
      { w with
        out := w.out ++ [(w.heap c).name ++ " is slain!"]
        combatants := w.combatants.erase c } := by
  unfold Battle.kill
  have hlt : List.indexOf c w.combatants ≠ w.combatants.length :=
    fun h => (List.indexOf_eq_length.mp h) hc
  simp only [hlt, ne_eq, not_false_eq_true, if_true, List.eraseIdx_indexOf_eq_erase]

theorem erase_split (l : List Ref) (c : Ref) (hc : c ∈ l) :
    ∃ p q, l = p ++ c :: q ∧ c ∉ p ∧ l.erase c = p ++ q := by
  obtain ⟨p, q, hp, hl, he⟩ := List.exists_erase_eq hc
  exact ⟨p, q, hl, hp, he⟩

/-! ## Scheduling and the collection of actions -/

theorem slower_false_iff (h : Heap) (a b : Ref) :
    Battle.slower h b a = false ↔ (h a).agility ≤ (h b).agility := by
  simp [Battle.slower]

theorem insertionSort_contract : StdSortContract insertionSort := by
  intro heap l
  unfold insertionSort
  refine ⟨List.perm_insertionSort _ l, ?_⟩
  haveI : IsTotal Ref (fun a b => Battle.slower heap b a = false) :=
    ⟨fun a b => by simp only [slower_false_iff]; exact le_total _ _⟩
  haveI : IsTrans Ref (fun a b => Battle.slower heap b a = false) :=
    ⟨fun a b c hab hbc => by
      simp only [slower_false_iff] at hab hbc ⊢; exact le_trans hab hbc⟩
  exact List.sorted_insertionSort (fun a b => Battle.slower heap b a = false) l

theorem targetSelection_choices_aux (h : Heap) (l : List Ref) (d : Dialogue) :
    (l.foldl (fun d target =>
        if (h target).id ≠ "player" then d.addChoice (h target).name else d) d).choices
      = d.choices ++ (l.filter (fun r => !isPlayer h r)).map (fun r => (h r).name) := by
  induction l generalizing d with
  | nil => simp
  | cons c t ih =>
    rw [List.foldl_cons, ih]
    by_cases hp : (h c).id = "player"
    · simp [hp, isPlayer]
    · simp [hp, isPlayer, Dialogue.addChoice]

/-- The target prompt lists the display names of the non-player combatants, in
roster order. -/
theorem targetSelection_choices (w : State) :
    (Battle.targetSelection w).choices
      = (w.combatants.filter (fun r => !isPlayer w.heap r)).map (fun r => (w.heap r).name) := by
  unfold Battle.targetSelection
  rw [targetSelection_choices_aux]
  simp

theorem targetSelection_length_le (w : State) :
    (Battle.targetSelection w).choices.length ≤ w.combatants.length := by
  rw [targetSelection_choices, List.length_map]
  exact List.length_filter_le _ _

theorem find_player_some (h : Heap) (l : List Ref)
    (hpl : 0 < (l.filter (isPlayer h)).length) :
    ∃ p, l.find? (fun a => decide ((h a).id = "player")) = some p := by
  cases hf : l.find? (fun a => decide ((h a).id = "player")) with
  | some p => exact ⟨p, rfl⟩
  | none =>
    exfalso
    rw [List.find?_eq_none] at hf
    obtain ⟨x, hx⟩ := List.exists_mem_of_length_pos hpl
    rw [List.mem_filter] at hx
    exact hf x hx.1 hx.2

/-- The collecting loop over `l`: it succeeds, and appends one event per visited
combatant, in the order of the visits. -/
theorem collect_sources (sel : Nat → Int) (R : List Ref) (H : Heap) (P : Nat)
    (hR : 0 < (R.filter (isPlayer H)).length)
    (hsel : sel P = 2 ∨ (1 ≤ sel (P + 1) ∧ sel (P + 1) ≤ (R.length : Int)))
    (l : List Ref) :
    ∀ (s : State) (evs : List BattleEvent), s.combatants = R → s.heap = H →
      (l.filter (isPlayer H)).length ≤ 1 →
      ((l.filter (isPlayer H)).length = 1 → s.prompts = P) →
      ∃ s1 evs1, Battle.collect sel (s, evs) l = some (s1, evs ++ evs1) ∧
        evs1.map (fun e => e.source) = l ∧ s1.combatants = R ∧ s1.heap = H := by
  induction l with
  | nil =>
    intro s evs hc hh _ _
    exact ⟨s, [], by simp [Battle.collect], rfl, hc, hh⟩
  | cons com rest ih =>
    intro s evs hc hh hle hP
    by_cases hp : (H com).id = "player"
    all_goals have hp1 := hp
    all_goals rw [← hh] at hp1
    · have hfc : (List.filter (isPlayer H) (com :: rest)).length
          = (List.filter (isPlayer H) rest).length + 1 := by
        simp [List.filter_cons, isPlayer, hp]
      have hrest : (List.filter (isPlayer H) rest).length = 0 := by omega
      have hPs : s.prompts = P := hP (by omega)
      by_cases h2 : sel P = 2
      · obtain ⟨s1, evs1, h1, h3, h4, h5⟩ :=
          ih { s with prompts := s.prompts + 1 }
            (evs ++ [{ source := com, target := none, type := BattleEventType.DEFEND }])
            hc hh (by omega) (by omega)
        refine ⟨s1, { source := com, target := none, type := BattleEventType.DEFEND } :: evs1,
          ?_, by simp [h3], h4, h5⟩
        rw [Battle.collect]
        simp only [Battle.chooseAction, hp1, if_true, Dialogue.activate, hPs, h2]
        rw [← hPs, h1]
        simp
      · have hv : 1 ≤ sel (P + 1) ∧ sel (P + 1) ≤ (R.length : Int) := by
          rcases hsel with h | h
          · exact absurd h h2
          · exact h
        have hidx : (sel (P + 1) - 1).toNat < R.length := by omega
        obtain ⟨tg, htg⟩ : ∃ tg, s.combatants.get? (sel (P + 1) - 1).toNat = some tg := by
          rw [hc]; exact ⟨R.get ⟨_, hidx⟩, List.get?_eq_get hidx⟩
        obtain ⟨s1, evs1, h1, h3, h4, h5⟩ :=
          ih { s with prompts := s.prompts + 1 + 1 }
            (evs ++ [{ source := com, target := some tg, type := BattleEventType.ATTACK }])
            hc hh (by omega) (by omega)
        refine ⟨s1, { source := com, target := some tg, type := BattleEventType.ATTACK } :: evs1,
          ?_, by simp [h3], h4, h5⟩
        rw [Battle.collect]
        have h0 : (0 : Int) ≤ sel (P + 1) - 1 := by omega
        simp only [Battle.chooseAction, hp1, if_true, Dialogue.activate, hPs, h2, if_false,
          Battle.combatantAt, h0, htg]
        rw [← hPs, h1]
        simp
    · have hfc : (List.filter (isPlayer H) (com :: rest)).length
          = (List.filter (isPlayer H) rest).length := by
        simp [List.filter_cons, isPlayer, hp]
      obtain ⟨pl, hpl⟩ := find_player_some H R hR
      rw [← hh, ← hc] at hpl
      obtain ⟨s1, evs1, h1, h3, h4, h5⟩ :=
        ih s (evs ++ [{ source := com, target := some pl, type := BattleEventType.ATTACK }])
          hc hh (by omega) (fun h => hP (by omega))
      refine ⟨s1, { source := com, target := some pl, type := BattleEventType.ATTACK } :: evs1,
        ?_, by simp [h3], h4, h5⟩
      rw [Battle.collect]
      simp only [Battle.chooseAction, hp1, if_false, hpl]
      rw [h1]
      simp

theorem sorted_pair (sort : (Ref → Ref → Bool) → List Ref → List Ref)
    (hsort : StdSortContract sort) :
    sort (Battle.slower slowDuel.heap) [0, 1] = [0, 1] := by
  obtain ⟨hperm, hsorted⟩ := hsort slowDuel.heap [0, 1]
  generalize sort (Battle.slower slowDuel.heap) [0, 1] = l at hperm hsorted
  have hlen : l.length = 2 := hperm.length_eq
  match l, hlen with
  | [a, b], _ =>
    have ha : a ∈ [0, 1] := hperm.subset (by simp)
    have hb : b ∈ [0, 1] := hperm.subset (by simp)
    have hnd : [a, b].Nodup := hperm.nodup_iff.mpr (by decide)
    simp only [List.mem_cons, List.mem_singleton, List.not_mem_nil, or_false] at ha hb
    simp only [List.nodup_cons, List.mem_singleton, List.not_mem_nil, not_false_eq_true,
      List.nodup_nil, and_true] at hnd
    rcases ha with rfl | rfl <;> rcases hb with rfl | rfl
    · exact absurd rfl hnd
    · rfl
    · exfalso
      have h10 := List.rel_of_pairwise_cons hsorted (List.mem_singleton_self _)
      revert h10
      decide
    · exact absurd rfl hnd

/-- What one pass of the collecting loop does when it succeeds: the creature
objects and the roster are untouched, and one event is queued whose source is
the visited combatant; for a non-player it is an Attack on the result of the
identity lookup. -/
theorem chooseAction_some (sel : Nat → Int) (s s1 : State) (evs evs1 : List BattleEvent)
    (com : Ref) (h : Battle.chooseAction sel (s, evs) com = some (s1, evs1)) :
    s1.heap = s.heap ∧ s1.combatants = s.combatants ∧
    ∃ e, evs1 = evs ++ [e] ∧ e.source = com ∧
      ((s.heap com).id ≠ "player" → e.type = BattleEventType.ATTACK ∧
        e.target = s.combatants.find? (fun a => decide ((s.heap a).id = "player"))) := by
  unfold Battle.chooseAction at h
  by_cases hp : (s.heap com).id = "player"
  · simp only [hp, if_true, Dialogue.activate] at h
    by_cases h2 : sel s.prompts = 2
    · simp only [h2, if_true, Option.some.injEq, Prod.mk.injEq] at h
      obtain ⟨hs, he⟩ := h
      subst hs
      exact ⟨rfl, rfl, _, he.symm, rfl, fun hn => absurd hp hn⟩
    · simp only [h2, if_false] at h
      split at h
      · simp only [Option.some.injEq, Prod.mk.injEq] at h
        obtain ⟨hs, he⟩ := h
        subst hs
        exact ⟨rfl, rfl, _, he.symm, rfl, fun hn => absurd hp hn⟩
      · cases h
  · simp only [hp, if_false] at h
    split at h
    · rename_i player hpl
      simp only [Option.some.injEq, Prod.mk.injEq] at h
      obtain ⟨hs, he⟩ := h
      subst hs
      exact ⟨rfl, rfl, _, he.symm, rfl, fun _ => ⟨rfl, hpl.symm⟩⟩
    · cases h

/-- What the collecting loop does when it succeeds. -/
theorem collect_some (sel : Nat → Int) (l : List Ref) :
    ∀ (s s1 : State) (evs evs1 : List BattleEvent),
      Battle.collect sel (s, evs) l = some (s1, evs1) →
      s1.heap = s.heap ∧ s1.combatants = s.combatants ∧
      ∃ new, evs1 = evs ++ new ∧ new.map (fun e => e.source) = l ∧
        ∀ e ∈ new, (s.heap e.source).id ≠ "player" → e.type = BattleEventType.ATTACK ∧
          e.target = s.combatants.find? (fun a => decide ((s.heap a).id = "player")) := by
  induction l with
  | nil =>
    intro s s1 evs evs1 h
    simp only [Battle.collect, Option.some.injEq, Prod.mk.injEq] at h
    obtain ⟨hs, he⟩ := h
    subst hs he
    exact ⟨rfl, rfl, [], by simp, rfl, by simp⟩
  | cons com rest ih =>
    intro s s1 evs evs1 h
    rw [Battle.collect] at h
    cases hc : Battle.chooseAction sel (s, evs) com with
    | none => rw [hc] at h; cases h
    | some s2 =>
      obtain ⟨s2a, s2b⟩ := s2
      rw [hc] at h
      simp only at h
      obtain ⟨hh, hr, e, he, hsrc, hnp⟩ := chooseAction_some sel s s2a evs s2b com hc
      obtain ⟨hh1, hr1, new, hnew, hmap, hall⟩ := ih s2a s1 s2b evs1 h
      refine ⟨hh1.trans hh, hr1.trans hr, e :: new, ?_, ?_, ?_⟩
      · rw [hnew, he]; simp
      · simp [hsrc, hmap]
      · intro e1 he1 hn
        rcases List.mem_cons.mp he1 with rfl | hmem
        · rw [hsrc] at hn
          exact hnp hn
        · have := hall e1 hmem (by rw [hh]; exact hn)
          rw [hh, hr] at this
          exact this

theorem run_concluded (sort : (Ref → Ref → Bool) → List Ref → List Ref) (attack : Attack)
    (sel : Nat → Int) (w : State) (h : w.combatants.length ≤ 1) (fuel : Nat) :
    Battle.run sort attack sel fuel w = some w := by
  have h1 : ¬ w.combatants.length > 1 := by omega
  cases fuel <;> simp [Battle.run, h1]

theorem run_in_progress (sort : (Ref → Ref → Bool) → List Ref → List Ref) (attack : Attack)
    (sel : Nat → Int) (w : State) (h : 1 < w.combatants.length) (fuel : Nat) :
    Battle.run sort attack sel (fuel + 1) w
      = (Battle.next_turn sort attack sel w).bind (Battle.run sort attack sel fuel) := by
  rw [Battle.run, if_pos h]
  cases Battle.next_turn sort attack sel w <;> rfl

theorem run_returns_concluded (sort : (Ref → Ref → Bool) → List Ref → List Ref)
    (attack : Attack) (sel : Nat → Int) (fuel : Nat) :
    ∀ w w1, Battle.run sort attack sel fuel w = some w1 → w1.combatants.length ≤ 1 := by
  induction fuel with
  | zero =>
    intro w w1 h
    by_cases hl : w.combatants.length > 1
    · simp [Battle.run, hl] at h
    · simp only [Battle.run, hl, if_false, Option.some.injEq] at h
      subst h; omega
  | succ n ih =>
    intro w w1 h
    by_cases hl : w.combatants.length > 1
    · rw [run_in_progress sort attack sel w hl n] at h
      cases hn : Battle.next_turn sort attack sel w with
      | none => rw [hn] at h; cases h
      | some w2 => rw [hn] at h; exact ih w2 w1 h
    · simp only [Battle.run, hl, if_false, Option.some.injEq] at h
      subst h; omega

/-! ## The event loop -/

/-- A stale Attack is skipped. -/
theorem resolve_skip (attack : Attack) (w : State) (e : BattleEvent)
    (htype : e.type = BattleEventType.ATTACK)
    (hstale : e.source ∉ w.combatants ∨ ∀ t, e.target = some t → t ∉ w.combatants) :
    Battle.resolve attack w e = some w := by
  unfold Battle.resolve
  rw [htype]
  simp only
  have hcond : e.source ∉ w.combatants ∨ Battle.present w.combatants e.target = false := by
    rcases hstale with hs | ht
    · exact Or.inl hs
    · right
      cases htg : e.target with
      | none => rfl
      | some t => simp [Battle.present, ht t htg]
  rw [if_pos hcond]

/-- A live Attack is carried out. -/
theorem resolve_attack (attack : Attack) (w : State) (e : BattleEvent) (t : Ref)
    (htype : e.type = BattleEventType.ATTACK) (hsrc : e.source ∈ w.combatants)
    (htgt : e.target = some t) (ht : t ∈ w.combatants) :
    Battle.resolve attack w e = some
      (if ((attack w.heap e.source t).2 t).hp ≤ 0 then
        Battle.kill
          { w with
            heap := (attack w.heap e.source t).2
            attacks := w.attacks ++ [(e.source, t)]
            out := w.out ++ [(w.heap e.source).name ++ " attacks " ++ (w.heap t).name
              ++ " for " ++ toString (attack w.heap e.source t).1 ++ " damage!"] } t
      else
        { w with
          heap := (attack w.heap e.source t).2
          attacks := w.attacks ++ [(e.source, t)]
          out := w.out ++ [(w.heap e.source).name ++ " attacks " ++ (w.heap t).name
            ++ " for " ++ toString (attack w.heap e.source t).1 ++ " damage!"] }) := by
  unfold Battle.resolve
  rw [htype]
  simp only
  have hcond : ¬ (e.source ∉ w.combatants ∨ Battle.present w.combatants e.target = false) := by
    rw [htgt]
    simp [Battle.present, hsrc, ht]
  rw [if_neg hcond, htgt]
  simp only [BattleEvent.run, htype, htgt]
  split <;> rfl

/-- The three ways an event is resolved. -/
theorem resolve_cases (attack : Attack) (w : State) (e : BattleEvent) :
    Battle.resolve attack w e = some w ∨
    (∃ t, e.type = BattleEventType.ATTACK ∧ e.source ∈ w.combatants ∧ e.target = some t ∧
      t ∈ w.combatants ∧
      Battle.resolve attack w e = some
        (if ((attack w.heap e.source t).2 t).hp ≤ 0 then
          Battle.kill
            { w with
              heap := (attack w.heap e.source t).2
              attacks := w.attacks ++ [(e.source, t)]
              out := w.out ++ [(w.heap e.source).name ++ " attacks " ++ (w.heap t).name
                ++ " for " ++ toString (attack w.heap e.source t).1 ++ " damage!"] } t
        else
          { w with
            heap := (attack w.heap e.source t).2
            attacks := w.attacks ++ [(e.source, t)]
            out := w.out ++ [(w.heap e.source).name ++ " attacks " ++ (w.heap t).name
              ++ " for " ++ toString (attack w.heap e.source t).1 ++ " damage!"] })) ∨
    (e.type = BattleEventType.DEFEND ∧
      Battle.resolve attack w e
        = some { w with out := w.out ++ [(w.heap e.source).name ++ " defends!"] }) := by
  cases htype : e.type with
  | DEFEND =>
    right; right
    refine ⟨rfl, ?_⟩
    unfold Battle.resolve
    rw [htype]
  | ATTACK =>
    by_cases hs : e.source ∈ w.combatants
    · cases htg : e.target with
      | none =>
        left
        exact resolve_skip attack w e htype (Or.inr (fun t ht => by rw [htg] at ht; cases ht))
      | some t =>
        by_cases ht : t ∈ w.combatants
        · right; left
          exact ⟨t, rfl, hs, rfl, ht, resolve_attack attack w e t htype hs htg ht⟩
        · left
          refine resolve_skip attack w e htype (Or.inr (fun t1 ht1 => ?_))
          rw [htg] at ht1
          cases ht1
          exact ht
    · left
      exact resolve_skip attack w e htype (Or.inl hs)

theorem kill_sublist (w : State) (c : Ref) : (Battle.kill w c).combatants.Sublist w.combatants := by
  by_cases hc : c ∈ w.combatants
  · rw [kill_present w c hc]
    exact List.erase_sublist c w.combatants
  · rw [kill_absent w c hc]

theorem kill_heap (w : State) (c : Ref) : (Battle.kill w c).heap = w.heap := by
  by_cases hc : c ∈ w.combatants
  · rw [kill_present w c hc]
  · rw [kill_absent w c hc]

/-- Resolving an event always has a result, and never adds to the roster. -/
theorem resolve_sublist (attack : Attack) (w : State) (e : BattleEvent) :
    ∃ w1, Battle.resolve attack w e = some w1 ∧ w1.combatants.Sublist w.combatants := by
  rcases resolve_cases attack w e with h | ⟨t, _, _, _, _, h⟩ | ⟨_, h⟩
  · exact ⟨w, h, List.Sublist.refl _⟩
  · refine ⟨_, h, ?_⟩
    split
    · exact kill_sublist _ t
    · exact List.Sublist.refl _
  · exact ⟨_, h, List.Sublist.refl _⟩

/-- The event loop always has a result, and never adds to the roster. -/
theorem processEvents_sublist (attack : Attack) (events : List BattleEvent) :
    ∀ w, ∃ w1, Battle.processEvents attack w events = some w1 ∧
      w1.combatants.Sublist w.combatants := by
  induction events with
  | nil => intro w; exact ⟨w, rfl, List.Sublist.refl _⟩
  | cons e rest ih =>
    intro w
    obtain ⟨w1, h1, hs1⟩ := resolve_sublist attack w e
    obtain ⟨w2, h2, hs2⟩ := ih w1
    refine ⟨w2, ?_, hs2.trans hs1⟩
    rw [Battle.processEvents, h1]
    exact h2

/-- A round that returns leaves a sub-sequence of the sorted roster. -/
theorem next_turn_sublist (sort : (Ref → Ref → Bool) → List Ref → List Ref) (attack : Attack)
    (sel : Nat → Int) (w w1 : State) (h : Battle.next_turn sort attack sel w = some w1) :
    w1.combatants.Sublist (Battle.schedule sort w).combatants := by
  unfold Battle.next_turn at h
  cases hq : Battle.enqueued sort sel w with
  | none => rw [hq] at h; cases h
  | some s =>
    obtain ⟨s1, evs⟩ := s
    rw [hq] at h
    simp only at h
    obtain ⟨_, hc, _⟩ := collect_some sel _ _ _ _ _ hq
    obtain ⟨w2, h2, hs2⟩ := processEvents_sublist attack evs s1
    rw [h2] at h
    cases h
    rw [hc] at hs2
    exact hs2

theorem tenDamage_changesOnlyTarget : ChangesOnlyTarget tenDamage := by
  intro h s t r hr
  simp [tenDamage, Function.update_noteq hr]

theorem resolve_allAlive (attack : Attack) (hattack : ChangesOnlyTarget attack) (w w1 : State)
    (e : BattleEvent) (hw : AllAlive w) (h : Battle.resolve attack w e = some w1) :
    AllAlive w1 := by
  obtain ⟨hnd, halive⟩ := hw
  rcases resolve_cases attack w e with h1 | ⟨t, _, _, _, ht, h1⟩ | ⟨_, h1⟩
  · rw [h1] at h; cases h; exact ⟨hnd, halive⟩
  · rw [h1] at h
    cases h
    by_cases hp : ((attack w.heap e.source t).2 t).hp ≤ 0
    · rw [if_pos hp, kill_present _ t (by exact ht)]
      refine ⟨hnd.erase t, ?_⟩
      intro r hr
      have hr2 := (hnd.mem_erase_iff).mp hr
      show 0 < ((attack w.heap e.source t).2 r).hp
      rw [hattack w.heap e.source t r hr2.1]
      exact halive r hr2.2
    · rw [if_neg hp]
      refine ⟨hnd, ?_⟩
      intro r hr
      show 0 < ((attack w.heap e.source t).2 r).hp
      by_cases hrt : r = t
      · rw [hrt]; omega
      · rw [hattack w.heap e.source t r hrt]
        exact halive r hr
  · rw [h1] at h; cases h; exact ⟨hnd, halive⟩

theorem processEvents_allAlive (attack : Attack) (hattack : ChangesOnlyTarget attack)
    (events : List BattleEvent) :
    ∀ w w1, AllAlive w → Battle.processEvents attack w events = some w1 → AllAlive w1 := by
  induction events with
  | nil =>
    intro w w1 hw h
    simp only [Battle.processEvents, Option.some.injEq] at h
    subst h; exact hw
  | cons e rest ih =>
    intro w w1 hw h
    rw [Battle.processEvents] at h
    cases hr : Battle.resolve attack w e with
    | none => rw [hr] at h; cases h
    | some w2 =>
      rw [hr] at h
      exact ih w2 w1 (resolve_allAlive attack hattack w w2 e hw hr) h

/-! ## The renaming loop on an arbitrary roster -/

theorem rename_inv_step (h0 : Heap) (m0 : NameMap) (done : List Ref) (h : Heap) (m : NameMap)
    (c : Ref) (hinv : RenameInv h0 m0 done (h, m))
    (hseed : (h0 c).id ≠ "player" → m0 (h0 c).name ≠ none) :
    RenameInv h0 m0 (c :: done) (Battle.rename (h, m) c) := by
  obtain ⟨ha, hb, hc, hd, he⟩ := hinv
  simp only at ha hb hc hd he
  -- a non-player visited for the first time is found in the map
  have hfirst : c ∉ done → (h0 c).id ≠ "player" → m (h c).name ≠ none := by
    intro hcd hp
    rw [hb c hcd]
    exact hc _ (hseed hp)
  rw [rename_eq]
  cases hm : m (h c).name with
  | none =>
    simp only
    refine ⟨ha, ?_, hc, ?_, ?_⟩
    · intro r hr
      exact hb r (fun hmem => hr (List.mem_cons_of_mem _ hmem))
    · intro r hr hp
      rcases List.mem_cons.mp hr with rfl | hmem
      · by_cases hcd : r ∈ done
        · exact hd r hcd hp
        · exact absurd hm (hfirst hcd hp)
      · exact hd r hmem hp
    · intro x hx y hy hpx hpy hxy
      have hxd : x ∈ done := by
        rcases List.mem_cons.mp hx with rfl | hmem
        · by_contra hcd; exact hfirst hcd hpx hm
        · exact hmem
      have hyd : y ∈ done := by
        rcases List.mem_cons.mp hy with rfl | hmem
        · by_contra hcd; exact hfirst hcd hpy hm
        · exact hmem
      exact he x hxd y hyd hpx hpy hxy
  | some v =>
    simp only
    have hfresh : ∀ r ∈ done, (h0 r).id ≠ "player" → r ≠ c →
        (h r).name ≠ suffixed (h c).name v := by
      intro r hr hp _ heq
      obtain ⟨n, k, c0, hn, hmn, hk⟩ := hd r hr hp
      rw [hn] at heq
      obtain ⟨h1, h2⟩ := suffixed_inj _ _ _ _ heq
      rw [h1, hm] at hmn
      cases hmn
      omega
    refine ⟨?_, ?_, ?_, ?_, ?_⟩
    · intro r
      by_cases hrc : r = c
      · subst hrc; simp [ha r]
      · simp [Function.update_noteq hrc, ha r]
    · intro r hr
      have hrc : r ≠ c := fun e => hr (e ▸ List.mem_cons_self _ _)
      simp only [Function.update_noteq hrc]
      exact hb r (fun hmem => hr (List.mem_cons_of_mem _ hmem))
    · intro n hn
      by_cases hnc : n = (h c).name
      · simp [NameMap.set, hnc]
      · simp only [NameMap.set, hnc, if_false]
        exact hc n hn
    · intro r hr hp
      by_cases hrc : r = c
      · subst hrc
        exact ⟨(h r).name, v, v + 1, by simp, by simp [NameMap.set], by omega⟩
      · have hmem : r ∈ done := by
          rcases List.mem_cons.mp hr with e | hmem
          · exact absurd e hrc
          · exact hmem
        obtain ⟨n, k, c0, hn, hmn, hk⟩ := hd r hmem hp
        refine ⟨n, k, if n = (h c).name then v + 1 else c0, ?_, ?_, ?_⟩
        · simp [Function.update_noteq hrc, hn]
        · by_cases hnc : n = (h c).name
          · simp [NameMap.set, hnc]
          · simp [NameMap.set, hnc, hmn]
        · by_cases hnc : n = (h c).name
          · rw [hnc, hm] at hmn
            cases hmn
            simp only [hnc, if_true]
            omega
          · simp only [hnc, if_false]
            exact hk
    · intro x hx y hy hpx hpy hxy
      by_cases hxc : x = c
      · have hyc : y ≠ c := fun e => hxy (hxc.trans e.symm)
        have hyd : y ∈ done := by
          rcases List.mem_cons.mp hy with e | hmem
          · exact absurd e hyc
          · exact hmem
        subst hxc
        simp only [Function.update_same, Function.update_noteq hyc]
        exact fun e => hfresh y hyd hpy hyc e.symm
      · have hxd : x ∈ done := by
          rcases List.mem_cons.mp hx with e | hmem
          · exact absurd e hxc
          · exact hmem
        by_cases hyc : y = c
        · subst hyc
          simp only [Function.update_same, Function.update_noteq hxc]
          exact hfresh x hxd hpx hxc
        · have hyd : y ∈ done := by
            rcases List.mem_cons.mp hy with e | hmem
            · exact absurd e hyc
            · exact hmem
          simp only [Function.update_noteq hxc, Function.update_noteq hyc]
          exact he x hxd y hyd hpx hpy hxy

theorem rename_inv_foldl (h0 : Heap) (m0 : NameMap) (todo : List Ref) :
    ∀ (done : List Ref) (s : Heap × NameMap), RenameInv h0 m0 done s →
      (∀ c ∈ todo, (h0 c).id ≠ "player" → m0 (h0 c).name ≠ none) →
      RenameInv h0 m0 (todo.reverse ++ done) (todo.foldl Battle.rename s) := by
  induction todo with
  | nil => intro done s hinv _; simpa using hinv
  | cons c rest ih =>
    intro done s hinv hseed
    rw [List.foldl_cons, List.reverse_cons, List.append_assoc]
    apply ih (c :: done)
    · exact rename_inv_step h0 m0 done s.1 s.2 c hinv (hseed c (List.mem_cons_self _ _))
    · exact fun c1 hc1 => hseed c1 (List.mem_cons_of_mem _ hc1)

theorem rename_inv_init (h0 : Heap) (m0 : NameMap) : RenameInv h0 m0 [] (h0, m0) := by
  refine ⟨fun _ => rfl, fun _ _ => rfl, fun _ hn => hn, ?_, ?_⟩
  · intro r hr; cases hr
  · intro x hx; cases hx

/-- The invariant of the renaming loop holds when the constructor is done. -/
theorem Battle_rename_inv (ord : Bool) (heap : Heap) (roster : List Ref) :
    RenameInv heap (Battle.seedNames ord heap roster) (roster.reverse ++ [])
      (roster.foldl Battle.rename (heap, Battle.seedNames ord heap roster)) := by
  apply rename_inv_foldl heap _ roster [] _ (rename_inv_init heap _)
  intro c hc hp
  rw [seedNames_eq]
  simp [seeders_pos heap roster c hc hp]

/-- With exactly one player who defends or answers the target prompt with a
valid selection, the collecting loop builds the queue, one action per visited
combatant. -/
theorem enqueued_exists (sort : (Ref → Ref → Bool) → List Ref → List Ref)
    (hsort : StdSortContract sort) (sel : Nat → Int) (w : State)
    (hone : (w.combatants.filter (isPlayer w.heap)).length = 1)
    (hsel : sel w.prompts = 2 ∨
      (1 ≤ sel (w.prompts + 1) ∧
        sel (w.prompts + 1)
          ≤ ((Battle.targetSelection (Battle.schedule sort w)).choices.length : Int))) :
    ∃ w1 events, Battle.enqueued sort sel w = some (w1, events) ∧
      events.map (fun e => e.source) = (Battle.schedule sort w).combatants := by
  have hperm : (Battle.schedule sort w).combatants.Perm w.combatants :=
    (hsort w.heap w.combatants).1
  have hone1 : ((Battle.schedule sort w).combatants.filter (isPlayer w.heap)).length = 1 := by
    rw [(hperm.filter _).length_eq, hone]
  have hsel1 : sel w.prompts = 2 ∨
      (1 ≤ sel (w.prompts + 1) ∧
        sel (w.prompts + 1) ≤ ((Battle.schedule sort w).combatants.length : Int)) := by
    rcases hsel with h | h
    · exact Or.inl h
    · right
      have := targetSelection_length_le (Battle.schedule sort w)
      omega
  obtain ⟨s1, evs1, h1, h2, _, _⟩ :=
    collect_sources sel (Battle.schedule sort w).combatants w.heap w.prompts (by omega) hsel1
      (Battle.schedule sort w).combatants (Battle.schedule sort w) [] rfl rfl (by omega)
      (fun _ => rfl)
  refine ⟨s1, evs1, ?_, h2⟩
  rw [Battle.enqueued, h1]; simp

/-! ## The insertion sort of libstdc++ -/

theorem deref_append_left (p q : List Ref) (i : Nat) (h : i < p.length) :
    std.deref (p ++ q) i = std.deref p i := by
  simp [std.deref, List.getD, List.getElem?_append_left h]

theorem deref_length (p rest : List Ref) (x : Ref) :
    std.deref (p ++ x :: rest) p.length = x := by
  simp [std.deref, List.getD, List.getElem?_append_right (Nat.le_refl _)]

theorem insert_reversed_length (comp : Ref → Ref → Bool) (val : Ref) (l : List Ref) :
    (insert_reversed comp val l).length = l.length + 1 := by
  induction l with
  | nil => rfl
  | cons y ys ih =>
    unfold insert_reversed
    split <;> simp [ih]

theorem insert_next_length (comp : Ref → Ref → Bool) (p : List Ref) (x : Ref) :
    (insert_next comp p x).length = p.length + 1 := by
  unfold insert_next insert_back
  split <;> simp [insert_reversed_length]

theorem insert_back_snoc (comp : Ref → Ref → Bool) (val y : Ref) (q : List Ref) :
    insert_back comp val (q ++ [y])
      = if comp val y then insert_back comp val q ++ [y] else q ++ [y, val] := by
  unfold insert_back
  simp only [List.reverse_append, List.reverse_cons, List.reverse_nil, List.nil_append,
    List.singleton_append, insert_reversed]
  split <;> simp

theorem linear_insert_eq (comp : Ref → Ref → Bool) (val : Ref) (p : List Ref) :
    ∀ (hole : Ref) (rest : List Ref),
      std.linear_insert comp val p.length (p ++ hole :: rest)
        = insert_back comp val p ++ rest := by
  induction p using List.reverseRecOn with
  | nil =>
    intro hole rest
    simp [std.linear_insert, insert_back, insert_reversed]
  | append_singleton q y ih =>
    intro hole rest
    have hlen : (q ++ [y]).length = q.length + 1 := by simp
    rw [hlen, std.linear_insert]
    have hd : std.deref (q ++ [y] ++ hole :: rest) q.length = y := by
      rw [List.append_assoc]
      exact deref_length q _ y
    rw [hd, insert_back_snoc]
    have hset : ∀ v, (q ++ [y] ++ hole :: rest).set (q.length + 1) v = q ++ y :: v :: rest := by
      intro v
      rw [List.append_assoc, List.set_append_right _ _ (by omega)]
      simp
    by_cases hc : comp val y = true
    · rw [if_pos hc, if_pos hc, hset, ih y (y :: rest)]
      simp
    · rw [if_neg hc, if_neg hc, hset]
      simp

theorem insertion_step_eq (comp : Ref → Ref → Bool) (p : List Ref) (x : Ref) (rest : List Ref)
    (hp : p ≠ []) :
    std.insertion_step comp 0 (p ++ x :: rest) p.length = insert_next comp p x ++ rest := by
  unfold std.insertion_step insert_next
  have hpos : 0 < p.length := List.length_pos.mpr hp
  rw [deref_length, deref_append_left p _ 0 hpos]
  by_cases hc : comp x (std.deref p 0) = true
  · rw [if_pos hc, if_pos hc]
    simp [std.move_to_front, deref_length]
  · rw [if_neg hc, if_neg hc]
    unfold std.__unguarded_linear_insert
    rw [deref_length, linear_insert_eq]

theorem insertion_fold_eq (comp : Ref → Ref → Bool) (rest : List Ref) :
    ∀ (p : List Ref), p ≠ [] →
      (List.range' p.length rest.length).foldl (std.insertion_step comp 0) (p ++ rest)
        = rest.foldl (insert_next comp) p := by
  induction rest with
  | nil => intro p _; simp
  | cons x rest ih =>
    intro p hp
    have hlen : (insert_next comp p x).length = p.length + 1 := insert_next_length comp p x
    have hne : insert_next comp p x ≠ [] := by
      intro h
      rw [h] at hlen
      simp at hlen
    rw [List.length_cons, List.range'_succ, List.foldl_cons, insertion_step_eq comp p x rest hp,
      List.foldl_cons]
    rw [← hlen]
    exact ih _ hne

theorem introsort_loop_short (comp : Ref → Ref → Bool) (depth : Nat) (a : List Ref)
    (first last : Nat) (h : last - first ≤ 16) :
    std.__introsort_loop comp depth a first last = a := by
  have h1 : ¬ last - first > std._S_threshold := by
    unfold std._S_threshold; omega
  cases depth <;> simp [std.__introsort_loop, h1]

/-- On a range of at most 16 values `std::sort` is the insertion sort alone. -/
theorem sort_short (comp : Ref → Ref → Bool) (x : Ref) (rest : List Ref)
    (h : (x :: rest).length ≤ 16) :
    std.__sort comp (x :: rest) = rest.foldl (insert_next comp) [x] := by
  unfold std.__sort
  rw [if_neg (by simp), introsort_loop_short comp _ _ 0 _ (by simpa using h)]
  unfold std.__final_insertion_sort
  have h1 : ¬ (x :: rest).length - 0 > std._S_threshold := by
    unfold std._S_threshold; simp at h ⊢; omega
  rw [if_neg h1]
  unfold std.__insertion_sort
  rw [if_neg (by simp)]
  have := insertion_fold_eq comp rest [x] (by simp)
  simpa using this

/-- Where `__unguarded_linear_insert` puts the value: behind a front part whose
last value it does not compare less than, before a back part of values it
compares less than. -/
theorem insert_back_split (comp : Ref → Ref → Bool) (val : Ref) (p : List Ref) :
    ∃ front back, p = front ++ back ∧ insert_back comp val p = front ++ val :: back ∧
      (∀ y ∈ back, comp val y = true) ∧
      (∀ z, front.getLast? = some z → comp val z = false) := by
  induction p using List.reverseRecOn with
  | nil =>
    exact ⟨[], [], rfl, by simp [insert_back, insert_reversed], by simp, by simp⟩
  | append_singleton q y ih =>
    rw [insert_back_snoc]
    by_cases hc : comp val y = true
    · obtain ⟨front, back, hq, hins, hback, hfront⟩ := ih
      refine ⟨front, back ++ [y], by rw [hq]; simp, ?_, ?_, hfront⟩
      · rw [if_pos hc, hins]; simp
      · intro z hz
        rcases List.mem_append.mp hz with h | h
        · exact hback z h
        · simp at h; rw [h]; exact hc
    · refine ⟨q ++ [y], [], by simp, by rw [if_neg hc]; simp, by simp, ?_⟩
      intro z hz
      simp at hz
      rw [← hz]
      simpa using hc

theorem sublist_insert_next (comp : Ref → Ref → Bool) (p : List Ref) (x : Ref) :
    p.Sublist (insert_next comp p x) := by
  unfold insert_next
  split
  · exact List.sublist_cons_self x p
  · obtain ⟨front, back, hp, hins, _, _⟩ := insert_back_split comp x p
    rw [hins]
    conv_lhs => rw [hp]
    exact (List.Sublist.refl front).append (List.sublist_cons_self x back)

theorem perm_insert_next (comp : Ref → Ref → Bool) (p : List Ref) (x : Ref) :
    (insert_next comp p x).Perm (p ++ [x]) := by
  unfold insert_next
  split
  · exact (List.perm_append_singleton x p).symm
  · obtain ⟨front, back, hp, hins, _, _⟩ := insert_back_split comp x p
    rw [hins, hp]
    simp only [List.append_assoc]
    exact List.Perm.append_left front (List.perm_append_singleton x back).symm

theorem pair_sublist_snoc (l : List Ref) (a b x : Ref) (h : [a, b].Sublist (l ++ [x])) :
    [a, b].Sublist l ∨ (b = x ∧ a ∈ l) := by
  obtain ⟨c1, c2, hc, h1, h2⟩ := List.sublist_append_iff.mp h
  rcases List.sublist_singleton.mp h2 with rfl | rfl
  · left
    simp at hc
    rw [hc]; exact h1
  · right
    cases c1 with
    | nil => simp at hc
    | cons u c1 =>
      cases c1 with
      | nil =>
        simp at hc
        exact ⟨hc.2, hc.1 ▸ List.singleton_sublist.mp h1⟩
      | cons v c1 =>
        have := congrArg List.length hc
        simp at this

theorem stablySorted_step (heap : Heap) (l p : List Ref) (x : Ref) (hp : p ≠ [])
    (h : StablySorted heap l p) :
    StablySorted heap (l ++ [x]) (insert_next (Battle.slower heap) p x) := by
  obtain ⟨hperm, hsorted, hties⟩ := h
  have hmem : ∀ a, a ∈ l → a ∈ p := fun a ha => hperm.mem_iff.mpr ha
  refine ⟨(perm_insert_next _ p x).trans (hperm.append_right [x]), ?_, ?_⟩
  · -- sorted
    unfold insert_next
    split
    · rename_i hc
      obtain ⟨hd, tl, rfl⟩ := List.exists_cons_of_ne_nil hp
      have hx : (heap x).agility < (heap hd).agility := by
        simpa [std.deref, Battle.slower] using hc
      rw [List.pairwise_cons] at hsorted ⊢
      refine ⟨?_, List.pairwise_cons.mpr hsorted⟩
      intro y hy
      rcases List.mem_cons.mp hy with rfl | hy1
      · omega
      · have := hsorted.1 y hy1
        omega
    · obtain ⟨front, back, hsplit, hins, hback, hfront⟩ :=
        insert_back_split (Battle.slower heap) x p
      rw [hins]
      rw [hsplit, List.pairwise_append] at hsorted
      obtain ⟨hf, hb, hfb⟩ := hsorted
      have hfx : ∀ a ∈ front, (heap a).agility ≤ (heap x).agility := by
        rcases List.eq_nil_or_concat front with rfl | ⟨q, z, rfl⟩
        · intro a ha; cases ha
        · rw [List.concat_eq_append] at hf hfront ⊢
          have hz : (heap z).agility ≤ (heap x).agility := by
            have := hfront z (by simp)
            simpa [Battle.slower] using this
          rw [List.pairwise_append] at hf
          intro a ha
          rcases List.mem_append.mp ha with h1 | h1
          · have := hf.2.2 a h1 z (by simp)
            omega
          · simp at h1; rw [h1]; exact hz
      have hxb : ∀ y ∈ back, (heap x).agility ≤ (heap y).agility := by
        intro y hy
        have := hback y hy
        simp [Battle.slower] at this
        omega
      rw [List.pairwise_append]
      refine ⟨hf, List.pairwise_cons.mpr ⟨hxb, hb⟩, ?_⟩
      intro a ha b hb1
      rcases List.mem_cons.mp hb1 with rfl | hb2
      · exact hfx a ha
      · exact hfb a ha b hb2
  · -- ties
    intro a b hab hsub
    rcases pair_sublist_snoc l a b x hsub with h1 | ⟨rfl, ha⟩
    · exact (hties a b hab h1).trans (sublist_insert_next _ p x)
    · have hap : a ∈ p := hmem a ha
      unfold insert_next
      split
      · rename_i hc
        exfalso
        obtain ⟨hd, tl, rfl⟩ := List.exists_cons_of_ne_nil hp
        have hx : (heap b).agility < (heap hd).agility := by
          simpa [std.deref, Battle.slower] using hc
        rw [List.pairwise_cons] at hsorted
        rcases List.mem_cons.mp hap with rfl | h2
        · omega
        · have := hsorted.1 a h2
          omega
      · obtain ⟨front, back, hsplit, hins, hback, _⟩ :=
          insert_back_split (Battle.slower heap) b p
        rw [hins]
        have hnb : a ∉ back := by
          intro hmb
          have := hback a hmb
          simp [Battle.slower] at this
          omega
        have haf : a ∈ front := by
          rw [hsplit] at hap
          rcases List.mem_append.mp hap with h3 | h3
          · exact h3
          · exact absurd h3 hnb
        have h1 : [a].Sublist front := List.singleton_sublist.mpr haf
        have h2 : [b].Sublist (b :: back) := List.singleton_sublist.mpr (List.mem_cons_self _ _)
        exact h1.append h2

theorem stablySorted_fold (heap : Heap) (rest : List Ref) :
    ∀ (l p : List Ref), p ≠ [] → StablySorted heap l p →
      StablySorted heap (l ++ rest) (rest.foldl (insert_next (Battle.slower heap)) p) := by
  induction rest with
  | nil => intro l p _ h; simpa using h
  | cons x rest ih =>
    intro l p hp h
    have hne : insert_next (Battle.slower heap) p x ≠ [] := by
      intro h0
      have := insert_next_length (Battle.slower heap) p x
      rw [h0] at this
      simp at this
    have := ih (l ++ [x]) _ hne (stablySorted_step heap l p x hp h)
    simpa using this

/-- On a roster of at most 16 combatants `std::sort` of libstdc++ sorts by agility
and leaves ties in their order. -/
theorem sort_short_stable (heap : Heap) (l : List Ref) (h : l.length ≤ 16) :
    StablySorted heap l (std.__sort (Battle.slower heap) l) := by
  cases l with
  | nil =>
    refine ⟨by simp [std.__sort], by simp [std.__sort], fun a b _ hs => by simp at hs⟩
  | cons x rest =>
    rw [sort_short _ x rest h]
    have h0 : StablySorted heap [x] [x] :=
      ⟨List.Perm.refl _, List.pairwise_singleton _ _, fun _ _ _ hs => hs⟩
    exact stablySorted_fold heap rest [x] [x] (by simp) h0

/-- On the rosters used above to evaluate rounds, insertion sort orders the
combatants exactly as `std::sort` of libstdc++ does. -/
theorem insertionSort_agrees_on_examples :
    (Battle.schedule insertionSort skirmish).combatants
      = (Battle.schedule std.__sort skirmish).combatants ∧
    (Battle.schedule insertionSort slowDuel).combatants
      = (Battle.schedule std.__sort slowDuel).combatants ∧
    (Battle.schedule insertionSort (duel true)).combatants
      = (Battle.schedule std.__sort (duel true)).combatants ∧
    (Battle.schedule insertionSort frailBattle).combatants
      = (Battle.schedule std.__sort frailBattle).combatants ∧
    (Battle.schedule insertionSort sturdyBattle).combatants
      = (Battle.schedule std.__sort sturdyBattle).combatants ∧
    (Battle.schedule insertionSort goblinTwice).combatants
      = (Battle.schedule std.__sort goblinTwice).combatants ∧
    (Battle.schedule insertionSort playerTwice).combatants
      = (Battle.schedule std.__sort playerTwice).combatants ∧
    (Battle.schedule insertionSort spentBattle).combatants
      = (Battle.schedule std.__sort spentBattle).combatants := by
  refine ⟨?_, ?_, ?_, ?_, ?_, ?_, ?_, ?_⟩ <;> decide

/-! ## The claims -/

/-- C1 (as stated, refuted): on the roster Goblin, Goblin, Slime of the claim the
constructor does not produce "Goblin (0)", "Goblin (1)", "Slime", whichever
operand of the assignment at line 94 is evaluated first; under the C++17 order
the names are "Goblin (1)", "Goblin (2)", "Slime (0)". -/
theorem C1_zero_based_refuted :
    (Battle.Battle true goblinsAndSlime [0, 1, 2]).displayNames
        ≠ ["Goblin (0)", "Goblin (1)", "Slime"] ∧
    (Battle.Battle false goblinsAndSlime [0, 1, 2]).displayNames
        ≠ ["Goblin (0)", "Goblin (1)", "Slime"] ∧
    (Battle.Battle true goblinsAndSlime [0, 1, 2]).displayNames
        = ["Goblin (1)", "Goblin (2)", "Slime (0)"] ∧
    (Battle.Battle false goblinsAndSlime [0, 1, 2]).displayNames
        = ["Goblin (1)", "Goblin (2)", "Slime (1)"] := by
  refine ⟨?_, ?_, ?_, ?_⟩ <;> decide

/-- C1 (amended): in a roster of distinct combatants, an entry whose display name
is carried by two or more non-player combatants is renamed to
name + " (k)", where k counts from 1 the roster entries with that name up to
and including the entry: the first becomes name + " (1)", the next
name + " (2)", and so on, in roster order. -/
theorem C1_duplicates_indexed_from_one (ord : Bool) (heap : Heap) (p q : List Ref) (r : Ref)
    (hnd : (p ++ r :: q).Nodup)
    (hdup : 2 ≤ seeders heap (heap r).name (p ++ r :: q)) :
    ((Battle.Battle ord heap (p ++ r :: q)).heap r).name =
      (heap r).name ++ " (" ++ toString (occurrences heap (heap r).name p + 1) ++ ")" := by
  rw [Battle_name ord heap p q r hnd]
  have h0 : seeders heap (heap r).name (p ++ r :: q) ≠ 0 := by omega
  have h2 : ¬ seeders heap (heap r).name (p ++ r :: q) < 2 := by omega
  simp only [h0, h2, if_false, and_false, suffixed]
  rw [Nat.add_comm, String.append_assoc, String.append_assoc, String.append_assoc]

/-- C1 (amended), at the roster of the claim: the second goblin becomes "Goblin (2)". -/
theorem C1_duplicates_indexed_from_one_witness :
    ([0] ++ 1 :: [2]).Nodup ∧
    2 ≤ seeders goblinsAndSlime (goblinsAndSlime 1).name ([0] ++ 1 :: [2]) ∧
    ((Battle.Battle true goblinsAndSlime ([0] ++ 1 :: [2])).heap 1).name =
      (goblinsAndSlime 1).name ++ " (" ++
        toString (occurrences goblinsAndSlime (goblinsAndSlime 1).name [0] + 1) ++ ")" ∧
    (goblinsAndSlime 1).name ++ " (" ++
        toString (occurrences goblinsAndSlime (goblinsAndSlime 1).name [0] + 1) ++ ")"
      = "Goblin (2)" :=
  ⟨by decide, by decide,
    C1_duplicates_indexed_from_one true goblinsAndSlime [0] [2] 1 (by decide) (by decide),
    by decide⟩

/-- C2 (code at the failing input): the only non-player combatant, named "Slime",
whose name therefore occurs exactly once, is renamed to "Slime (0)" (right
operand of line 94 first) or "Slime (1)" (left operand first). -/
theorem C2_single_name_is_suffixed :
    (Battle.Battle true loneSlime [0]).displayNames = ["Slime (0)"] ∧
    (Battle.Battle false loneSlime [0]).displayNames = ["Slime (1)"] := by
  constructor <;> decide

/-- C3 (as stated, refuted): the roster of two goblins and one player whose display
name is "Goblin (1)" has distinct combatants and exactly one player, yet after
construction the first goblin and the player are both called "Goblin (1)",
whichever operand of line 94 is evaluated first. -/
theorem C3_player_name_collides :
    [0, 1, 2].Nodup ∧
    ([0, 1, 2].filter (isPlayer goblinsAndNamesake)).length = 1 ∧
    (Battle.Battle true goblinsAndNamesake [0, 1, 2]).displayNames
      = ["Goblin (1)", "Goblin (2)", "Goblin (1)"] ∧
    (Battle.Battle false goblinsAndNamesake [0, 1, 2]).displayNames
      = ["Goblin (1)", "Goblin (2)", "Goblin (1)"] ∧
    ¬ (Battle.Battle true goblinsAndNamesake [0, 1, 2]).displayNames.Nodup ∧
    ¬ (Battle.Battle false goblinsAndNamesake [0, 1, 2]).displayNames.Nodup := by
  refine ⟨?_, ?_, ?_, ?_, ?_, ?_⟩ <;> decide

/-- C3 (amended): for every roster of distinct combatants with exactly one player
whose display name does not end in ")", the display names of all combatants
(player included) are pairwise distinct after construction. -/
theorem C3_display_names_distinct (ord : Bool) (heap : Heap) (roster : List Ref)
    (hnd : roster.Nodup)
    (hone : (roster.filter (isPlayer heap)).length = 1)
    (hplayer : ∀ r ∈ roster, (heap r).id = "player" →
      (heap r).name.toList.getLast? ≠ some ')') :
    (Battle.Battle ord heap roster).displayNames.Nodup := by
  unfold State.displayNames
  have hc : (Battle.Battle ord heap roster).combatants = roster := rfl
  rw [hc]
  apply List.Nodup.map_on _ hnd
  intro x hx y hy hxy
  exact Battle_name_inj ord heap roster hnd (le_of_eq hone) hplayer x y hx hy hxy

/-- C3 (amended), at a player and two goblins: the names become "Player",
"Goblin (1)", "Goblin (2)". -/
theorem C3_display_names_distinct_witness :
    [0, 1, 2].Nodup ∧
    ([0, 1, 2].filter (isPlayer playerAndGoblins)).length = 1 ∧
    (Battle.Battle true playerAndGoblins [0, 1, 2]).displayNames.Nodup ∧
    (Battle.Battle true playerAndGoblins [0, 1, 2]).displayNames
      = ["Player", "Goblin (1)", "Goblin (2)"] :=
  ⟨by decide, by decide,
    C3_display_names_distinct true playerAndGoblins [0, 1, 2] (by decide) (by decide)
      (by decide),
    by decide⟩

/-- C4 (code at the failing input): roster [Player (agility 1), Goblin (agility 2)],
the player choosing Attack (1) and then the only entry of the target prompt
(1). The roster has exactly one player, the prompt lists the one name
"Goblin (0)" and the selection 1 is valid, yet the action queued for the
player (reference 0) has the player itself as target: the selection indexes
the whole sorted roster, in which the player comes first. This is so for
every conforming `std::sort`. -/
theorem C4_player_targets_itself :
    (slowDuel.combatants.filter (isPlayer slowDuel.heap)).length = 1 ∧
    (Battle.targetSelection (Battle.schedule insertionSort slowDuel)).choices = ["Goblin (0)"] ∧
    (Battle.enqueued insertionSort (fun _ => 1) slowDuel).map (fun s => s.2)
      = some [{ source := 0, target := some 0, type := BattleEventType.ATTACK },
              { source := 1, target := some 0, type := BattleEventType.ATTACK }] ∧
    (slowDuel.heap 0).id = "player" ∧
    (∀ sort, StdSortContract sort →
      (Battle.targetSelection (Battle.schedule sort slowDuel)).choices = ["Goblin (0)"] ∧
      (Battle.enqueued sort (fun _ => 1) slowDuel).map (fun s => s.2)
        = some [{ source := 0, target := some 0, type := BattleEventType.ATTACK },
                { source := 1, target := some 0, type := BattleEventType.ATTACK }]) := by
  refine ⟨by decide, by decide, by decide, by decide, ?_⟩
  intro sort hsort
  have hs : Battle.schedule sort slowDuel = { slowDuel with combatants := [0, 1] } := by
    unfold Battle.schedule
    have : slowDuel.combatants = [0, 1] := rfl
    rw [this, sorted_pair sort hsort]
  rw [Battle.enqueued, hs]
  constructor <;> decide

/-- C5: an Attack whose source is not in the roster, or whose target is not (a null
target included), is skipped when it is dequeued: resolving it returns the very
same state (same heap, so no health changes; same output, so no line; same
roster; same log of attack calls, so the attack computation is not invoked),
and the event loop goes on with the rest of the queue, the event being
popped. -/
theorem C5_stale_attack_skipped (attack : Attack) (w : State) (e : BattleEvent)
    (rest : List BattleEvent) (htype : e.type = BattleEventType.ATTACK)
    (hstale : e.source ∉ w.combatants ∨ ∀ t, e.target = some t → t ∉ w.combatants) :
    Battle.resolve attack w e = some w ∧
    Battle.processEvents attack w (e :: rest) = Battle.processEvents attack w rest := by
  have h : Battle.resolve attack w e = some w := by
    unfold Battle.resolve
    rw [htype]
    simp only
    have hcond : e.source ∉ w.combatants ∨ Battle.present w.combatants e.target = false := by
      rcases hstale with hs | ht
      · exact Or.inl hs
      · right
        cases htg : e.target with
        | none => rfl
        | some t => simp [Battle.present, ht t htg]
    rw [if_pos hcond]
  refine ⟨h, ?_⟩
  rw [Battle.processEvents, h]

/-- C5 at the two goblins and the slime: an attack by the absent reference 7 on
goblin 0, and an attack by goblin 0 on the absent reference 7, are skipped. -/
theorem C5_stale_attack_skipped_witness :
    ((7 : Ref) ∉ threeFoes.combatants ∨ ∀ t, (some 0 : Option Ref) = some t → t ∉ threeFoes.combatants) ∧
    (Battle.resolve tenDamage threeFoes
        { source := 7, target := some 0, type := BattleEventType.ATTACK } = some threeFoes ∧
      Battle.processEvents tenDamage threeFoes
        [{ source := 7, target := some 0, type := BattleEventType.ATTACK }]
        = Battle.processEvents tenDamage threeFoes []) :=
  ⟨Or.inl (by decide),
    C5_stale_attack_skipped tenDamage threeFoes
      { source := 7, target := some 0, type := BattleEventType.ATTACK } [] rfl
      (Or.inl (by decide))⟩

/-- C6: an Attack whose source and target are both in the roster calls the attack
computation once, source on target (one entry more in the log of calls, the
heap is the one the call leaves), writes
"<source name> attacks <target name> for <damage> damage!" with the returned
damage, and then, exactly when the health of the target is zero or below,
removes the target (its first entry) from the roster and writes
"<target name> is slain!"; otherwise the roster is unchanged and nothing more
is written. -/
theorem C6_live_attack_resolved (attack : Attack) (w : State) (e : BattleEvent) (t : Ref)
    (htype : e.type = BattleEventType.ATTACK) (hsrc : e.source ∈ w.combatants)
    (htgt : e.target = some t) (ht : t ∈ w.combatants) :
    Battle.resolve attack w e = some
      { heap := (attack w.heap e.source t).2
        combatants :=
          if ((attack w.heap e.source t).2 t).hp ≤ 0 then w.combatants.erase t
          else w.combatants
        battleOptions := w.battleOptions
        out := w.out ++
          ((w.heap e.source).name ++ " attacks " ++ (w.heap t).name ++ " for "
              ++ toString (attack w.heap e.source t).1 ++ " damage!") ::
            (if ((attack w.heap e.source t).2 t).hp ≤ 0 then
              [((attack w.heap e.source t).2 t).name ++ " is slain!"]
             else [])
        prompts := w.prompts
        attacks := w.attacks ++ [(e.source, t)] } := by
  unfold Battle.resolve
  rw [htype]
  simp only
  have hcond : ¬ (e.source ∉ w.combatants ∨ Battle.present w.combatants e.target = false) := by
    rw [htgt]
    simp [Battle.present, hsrc, ht]
  rw [if_neg hcond, htgt]
  simp only [BattleEvent.run, htype, htgt]
  by_cases hp : ((attack w.heap e.source t).2 t).hp ≤ 0
  · rw [if_pos hp, if_pos hp, if_pos hp, kill_present _ t (by exact ht)]
    simp
  · rw [if_neg hp, if_neg hp, if_neg hp]

/-- C6 at the two goblins and the slime with 10 damage per attack: goblin 0
attacks the slime (5 health), which is slain and leaves the roster. -/
theorem C6_live_attack_resolved_witness :
    (0 : Ref) ∈ threeFoes.combatants ∧ (2 : Ref) ∈ threeFoes.combatants ∧
    (Battle.resolve tenDamage threeFoes
        { source := 0, target := some 2, type := BattleEventType.ATTACK }).map
      (fun w => (w.combatants, w.out, w.attacks, (w.heap 2).hp))
      = some ([0, 1], ["Goblin attacks Slime for 10 damage!", "Slime is slain!"], [(0, 2)], -5) := by
  refine ⟨by decide, by decide, ?_⟩
  rw [C6_live_attack_resolved tenDamage threeFoes
    { source := 0, target := some 2, type := BattleEventType.ATTACK } 2 rfl (by decide) rfl
    (by decide)]
  decide

/-- C7: `kill(c)` leaves the whole state as it is, and so reports nothing, when
`c` is not in the roster; otherwise the roster splits as `p ++ c :: q` with
`c` not in `p`, and `kill(c)` leaves `p ++ q` (the first entry identical to
`c` is removed, every other entry keeps its place in the order), reports the
one line "<name of c> is slain!", and changes nothing else. The heap, and so
the display names, are arbitrary: a namesake of `c` is left in place. -/
theorem C7_kill_removes_first_reference (w : State) (c : Ref) :
    (c ∉ w.combatants → Battle.kill w c = w) ∧
    (c ∈ w.combatants → ∃ p q, w.combatants = p ++ c :: q ∧ c ∉ p ∧
      (Battle.kill w c).combatants = p ++ q ∧
      (Battle.kill w c).out = w.out ++ [(w.heap c).name ++ " is slain!"] ∧
      (Battle.kill w c).heap = w.heap ∧
      (Battle.kill w c).battleOptions = w.battleOptions ∧
      (Battle.kill w c).prompts = w.prompts ∧
      (Battle.kill w c).attacks = w.attacks) := by
  refine ⟨kill_absent w c, fun hc => ?_⟩
  obtain ⟨p, q, hl, hp, he⟩ := erase_split w.combatants c hc
  refine ⟨p, q, hl, hp, ?_, ?_, ?_, ?_, ?_, ?_⟩ <;> rw [kill_present w c hc]
  exact he

/-- C7 on a roster with two combatants of the same display name "Goblin": killing
the second one (reference 1) keeps the first (reference 0), and killing a
combatant that is not in the roster changes neither roster nor output. -/
theorem C7_kill_namesake_example :
    (Battle.kill threeFoes 1).combatants = [0, 2] ∧
    (Battle.kill threeFoes 1).out = ["Goblin is slain!"] ∧
    (Battle.kill threeFoes 7).combatants = [0, 1, 2] ∧
    (Battle.kill threeFoes 7).out = [] := by
  refine ⟨?_, ?_, ?_, ?_⟩ <;> decide

/-- C8: when `c` occurs at most once in the roster, a second `kill(c)` right
after the first changes nothing: the state after two calls is the state after
one, so the roster is the same and the second call reports nothing. -/
theorem C8_kill_idempotent (w : State) (c : Ref) (hc : w.combatants.count c ≤ 1) :
    Battle.kill (Battle.kill w c) c = Battle.kill w c ∧
    (Battle.kill (Battle.kill w c) c).combatants = (Battle.kill w c).combatants ∧
    (Battle.kill (Battle.kill w c) c).out = (Battle.kill w c).out := by
  have h : Battle.kill (Battle.kill w c) c = Battle.kill w c := by
    apply kill_absent
    by_cases hm : c ∈ w.combatants
    · rw [kill_present w c hm]
      simp only
      intro hmem
      have h1 : 0 < (w.combatants.erase c).count c := List.count_pos_iff.mpr hmem
      rw [List.count_erase_self] at h1
      omega
    · rw [kill_absent w c hm]; exact hm
  exact ⟨h, by rw [h], by rw [h]⟩

/-- C8 at the roster of two goblins and a slime: killing the slime twice. -/
theorem C8_kill_idempotent_witness :
    threeFoes.combatants.count 2 ≤ 1 ∧
    (Battle.kill (Battle.kill threeFoes 2) 2 = Battle.kill threeFoes 2 ∧
      (Battle.kill (Battle.kill threeFoes 2) 2).combatants = (Battle.kill threeFoes 2).combatants ∧
      (Battle.kill (Battle.kill threeFoes 2) 2).out = (Battle.kill threeFoes 2).out) ∧
    (Battle.kill (Battle.kill threeFoes 2) 2).combatants = [0, 1] ∧
    (Battle.kill (Battle.kill threeFoes 2) 2).out = ["Slime is slain!"] :=
  ⟨by decide, C8_kill_idempotent threeFoes 2 (by decide), by decide, by decide⟩

/-- C9: in a round on a roster with exactly one player, where the player either
defends or answers the target prompt with a valid 1-based selection, the
collecting loop succeeds and the queue it leaves holds one action per
combatant: the sources of the queued actions, front first, are the
speed-sorted roster, so the number of queued actions is the number of
combatants at the start of the round. -/
theorem C9_one_action_per_combatant (sort : (Ref → Ref → Bool) → List Ref → List Ref)
    (hsort : StdSortContract sort) (sel : Nat → Int) (w : State)
    (hone : (w.combatants.filter (isPlayer w.heap)).length = 1)
    (hsel : sel w.prompts = 2 ∨
      (1 ≤ sel (w.prompts + 1) ∧
        sel (w.prompts + 1)
          ≤ ((Battle.targetSelection (Battle.schedule sort w)).choices.length : Int))) :
    ∃ w1 events, Battle.enqueued sort sel w = some (w1, events) ∧
      events.map (fun e => e.source) = (Battle.schedule sort w).combatants ∧
      events.length = w.combatants.length := by
  have hperm : (Battle.schedule sort w).combatants.Perm w.combatants :=
    (hsort w.heap w.combatants).1
  have hone1 : ((Battle.schedule sort w).combatants.filter (isPlayer w.heap)).length = 1 := by
    rw [(hperm.filter _).length_eq, hone]
  have hsel1 : sel w.prompts = 2 ∨
      (1 ≤ sel (w.prompts + 1) ∧
        sel (w.prompts + 1) ≤ ((Battle.schedule sort w).combatants.length : Int)) := by
    rcases hsel with h | h
    · exact Or.inl h
    · right
      have := targetSelection_length_le (Battle.schedule sort w)
      omega
  obtain ⟨s1, evs1, h1, h2, _, _⟩ :=
    collect_sources sel (Battle.schedule sort w).combatants w.heap w.prompts (by omega) hsel1
      (Battle.schedule sort w).combatants (Battle.schedule sort w) [] rfl rfl (by omega)
      (fun _ => rfl)
  refine ⟨s1, evs1, ?_, h2, ?_⟩
  · rw [Battle.enqueued, h1]; simp
  · rw [← hperm.length_eq, ← h2, List.length_map]

/-- C9 at a player and two goblins, the player attacking the first listed
target: three actions, goblins first. -/
theorem C9_one_action_per_combatant_witness :
    StdSortContract insertionSort ∧
    (skirmish.combatants.filter (isPlayer skirmish.heap)).length = 1 ∧
    (∃ w1 events, Battle.enqueued insertionSort (fun _ => 1) skirmish = some (w1, events) ∧
      events.map (fun e => e.source) = (Battle.schedule insertionSort skirmish).combatants ∧
      events.length = skirmish.combatants.length) ∧
    (Battle.enqueued insertionSort (fun _ => 1) skirmish).map (fun s => s.2)
      = some [{ source := 1, target := some 0, type := BattleEventType.ATTACK },
              { source := 2, target := some 0, type := BattleEventType.ATTACK },
              { source := 0, target := some 1, type := BattleEventType.ATTACK }] :=
  ⟨insertionSort_contract, by decide,
    C9_one_action_per_combatant insertionSort insertionSort_contract (fun _ => 1) skirmish
      (by decide) (Or.inr (by decide)),
    by decide⟩

/-- C10: the list of combatants that the collecting loop of `next_turn` visits,
in the order of the visits, is the roster after `std::sort`: a permutation of
the roster at the start of the round, sorted by non-decreasing agility; the
creature objects are not touched by the sort. The loop queues one action per
visit, so whenever it builds the queue the sources of the queued actions,
front first, are that sorted permutation; and it does build the queue when the
roster has exactly one player who defends or answers the target prompt with a
valid selection. -/
theorem C10_visit_order_sorted (sort : (Ref → Ref → Bool) → List Ref → List Ref)
    (hsort : StdSortContract sort) (sel : Nat → Int) (w : State) :
    Battle.enqueued sort sel w
      = Battle.collect sel (Battle.schedule sort w, []) (Battle.schedule sort w).combatants ∧
    (Battle.schedule sort w).combatants.Perm w.combatants ∧
    (Battle.schedule sort w).combatants.Pairwise
      (fun a b => (w.heap a).agility ≤ (w.heap b).agility) ∧
    (Battle.schedule sort w).heap = w.heap ∧
    (∀ (w1 : State) (events : List BattleEvent),
      Battle.enqueued sort sel w = some (w1, events) →
      events.map (fun e => e.source) = (Battle.schedule sort w).combatants ∧
      (events.map (fun e => e.source)).Perm w.combatants ∧
      (events.map (fun e => e.source)).Pairwise
        (fun a b => (w.heap a).agility ≤ (w.heap b).agility)) ∧
    ((w.combatants.filter (isPlayer w.heap)).length = 1 →
      (sel w.prompts = 2 ∨
        (1 ≤ sel (w.prompts + 1) ∧
          sel (w.prompts + 1)
            ≤ ((Battle.targetSelection (Battle.schedule sort w)).choices.length : Int))) →
      ∃ w1 events, Battle.enqueued sort sel w = some (w1, events) ∧
        events.map (fun e => e.source) = (Battle.schedule sort w).combatants) := by
  have hperm : (Battle.schedule sort w).combatants.Perm w.combatants :=
    (hsort w.heap w.combatants).1
  have hsorted : (Battle.schedule sort w).combatants.Pairwise
      (fun a b => (w.heap a).agility ≤ (w.heap b).agility) :=
    (hsort w.heap w.combatants).2.imp (fun hab => (slower_false_iff w.heap _ _).mp hab)
  refine ⟨rfl, hperm, hsorted, rfl, ?_, ?_⟩
  · intro w1 events hq
    obtain ⟨_, _, new, hnew, hmap, _⟩ := collect_some sel _ _ _ _ _ hq
    simp only [List.nil_append] at hnew
    subst hnew
    rw [hmap]
    exact ⟨rfl, hperm, hsorted⟩
  · intro hone hsel
    obtain ⟨w1, events, hq, hsrc⟩ := enqueued_exists sort hsort sel w hone hsel
    exact ⟨w1, events, hq, hsrc⟩

/-- C10 at a player and two goblins: the visits go goblin, goblin, player, and
the queue holds their actions in that order. -/
theorem C10_visit_order_sorted_witness :
    StdSortContract insertionSort ∧
    (Battle.schedule insertionSort skirmish).combatants = [1, 2, 0] ∧
    (Battle.enqueued insertionSort (fun _ => 1) skirmish).map
        (fun s => s.2.map (fun e => e.source)) = some [1, 2, 0] ∧
    (∀ (w1 : State) (events : List BattleEvent),
      Battle.enqueued insertionSort (fun _ => 1) skirmish = some (w1, events) →
      events.map (fun e => e.source) = (Battle.schedule insertionSort skirmish).combatants ∧
      (events.map (fun e => e.source)).Perm skirmish.combatants ∧
      (events.map (fun e => e.source)).Pairwise
        (fun a b => (skirmish.heap a).agility ≤ (skirmish.heap b).agility)) :=
  ⟨insertionSort_contract, by decide, by decide,
    (C10_visit_order_sorted insertionSort insertionSort_contract (fun _ => 1)
      skirmish).2.2.2.2.1⟩

set_option maxRecDepth 100000 in
/-- C11 (as stated, refuted): a player and sixteen goblins, all of agility 3, in the
roster [0, 1, ..., 16]. `std::sort` of libstdc++ partitions a range of more
than 16 values before it sorts by insertion, and leaves the roster as
[8, 16, 15, ..., 9, 0, 7, 6, ..., 1]: combatant 1 stood before combatant 2 and
stands after it when the sort is done. -/
theorem C11_seventeen_ties_reordered :
    crowd.combatants = [0, 1, 2, 3, 4, 5, 6, 7, 8, 9, 10, 11, 12, 13, 14, 15, 16] ∧
    (crowd.heap 1).agility = (crowd.heap 2).agility ∧
    [1, 2].Sublist crowd.combatants ∧
    (Battle.schedule std.__sort crowd).combatants
      = [8, 16, 15, 14, 13, 12, 11, 10, 9, 0, 7, 6, 5, 4, 3, 2, 1] ∧
    ¬ [1, 2].Sublist (Battle.schedule std.__sort crowd).combatants := by
  refine ⟨by decide, by decide, by decide, by decide, by decide⟩

/-- C11 (amended): on a roster of at most 16 combatants the scheduling is stable:
of two combatants with equal agility, the one that stands before the other in
the roster (as a two-element sub-sequence) still stands before it after
`std::sort`; the sorted roster is a rearrangement of the roster in
non-decreasing agility. -/
theorem C11_short_roster_keeps_ties (w : State) (a b : Ref)
    (hshort : w.combatants.length ≤ 16)
    (heq : (w.heap a).agility = (w.heap b).agility)
    (hbefore : [a, b].Sublist w.combatants) :
    [a, b].Sublist (Battle.schedule std.__sort w).combatants ∧
    (Battle.schedule std.__sort w).combatants.Perm w.combatants ∧
    (Battle.schedule std.__sort w).combatants.Pairwise
      (fun x y => (w.heap x).agility ≤ (w.heap y).agility) := by
  obtain ⟨hperm, hsorted, hties⟩ := sort_short_stable w.heap w.combatants hshort
  exact ⟨hties a b heq hbefore, hperm, hsorted⟩

/-- C11 (amended), at the twins and at the player with two goblins: the roster of
the twins stays [0, 1], and in [player, goblin, goblin] the two goblins of
equal agility keep their order before the faster player. -/
theorem C11_short_roster_keeps_ties_witness :
    twinsBattle.combatants.length ≤ 16 ∧
    (twinsBattle.heap 0).agility = (twinsBattle.heap 1).agility ∧
    [0, 1].Sublist twinsBattle.combatants ∧
    ([0, 1].Sublist (Battle.schedule std.__sort twinsBattle).combatants ∧
      (Battle.schedule std.__sort twinsBattle).combatants.Perm twinsBattle.combatants ∧
      (Battle.schedule std.__sort twinsBattle).combatants.Pairwise
        (fun x y => (twinsBattle.heap x).agility ≤ (twinsBattle.heap y).agility)) ∧
    (Battle.schedule std.__sort twinsBattle).combatants = [0, 1] ∧
    (Battle.schedule std.__sort skirmish).combatants = [1, 2, 0] :=
  ⟨by decide, by decide, by decide,
    C11_short_roster_keeps_ties twinsBattle 0 1 (by decide) (by decide) (by decide),
    by decide, by decide⟩

/-- C12: when the roster holds a player at the start of the round, the identity
lookup of the enemy policy finds the first entry `p` of the sorted roster with
the player identity, and never fails: for every non-player combatant the pass
of the collecting loop succeeds and queues exactly an Attack by that combatant
on `p`; so in the queue built by the round every action of a non-player is an
Attack whose target is `p`. -/
theorem C12_enemy_attacks_player (sort : (Ref → Ref → Bool) → List Ref → List Ref)
    (hsort : StdSortContract sort) (sel : Nat → Int) (w : State)
    (hpl : ∃ r ∈ w.combatants, (w.heap r).id = "player") :
    ∃ p front back,
      (Battle.schedule sort w).combatants = front ++ p :: back ∧
      (w.heap p).id = "player" ∧ p ∈ w.combatants ∧
      (∀ r ∈ front, (w.heap r).id ≠ "player") ∧
      (∀ (s : State) (evs : List BattleEvent) (com : Ref),
        s.combatants = (Battle.schedule sort w).combatants → s.heap = w.heap →
        (w.heap com).id ≠ "player" →
        Battle.chooseAction sel (s, evs) com
          = some (s, evs ++ [{ source := com, target := some p,
                               type := BattleEventType.ATTACK }])) ∧
      (∀ (w1 : State) (events : List BattleEvent),
        Battle.enqueued sort sel w = some (w1, events) →
        events.map (fun e => e.source) = (Battle.schedule sort w).combatants ∧
        ∀ e ∈ events, (w.heap e.source).id ≠ "player" →
          e.type = BattleEventType.ATTACK ∧ e.target = some p) := by
  have hperm : (Battle.schedule sort w).combatants.Perm w.combatants :=
    (hsort w.heap w.combatants).1
  obtain ⟨r, hr, hrp⟩ := hpl
  have hpos : 0 < ((Battle.schedule sort w).combatants.filter (isPlayer w.heap)).length := by
    apply List.length_pos_of_mem (a := r)
    rw [List.mem_filter]
    exact ⟨hperm.mem_iff.mpr hr, by simp [isPlayer, hrp]⟩
  obtain ⟨p, hp⟩ := find_player_some w.heap _ hpos
  obtain ⟨hpp, front, back, hsplit, hfront⟩ := List.find?_eq_some.mp hp
  refine ⟨p, front, back, hsplit, by simpa using hpp, ?_, ?_, ?_, ?_⟩
  · apply hperm.mem_iff.mp
    rw [hsplit]; simp
  · intro x hx
    simpa using hfront x hx
  · intro s evs com hs hh hcom
    unfold Battle.chooseAction
    simp only [hh, hcom, if_false, hs, hp]
  · intro w1 events hq
    obtain ⟨_, _, new, hnew, hmap, hall⟩ := collect_some sel _ _ _ _ _ hq
    simp only [List.nil_append] at hnew
    subst hnew
    refine ⟨hmap, ?_⟩
    intro e he hn
    have := hall e he hn
    rw [show (Battle.schedule sort w).heap = w.heap from rfl, hp] at this
    exact this

/-- C12 at a player and two goblins: both goblins attack the player, reference 0. -/
theorem C12_enemy_attacks_player_witness :
    StdSortContract insertionSort ∧
    (∃ r ∈ skirmish.combatants, (skirmish.heap r).id = "player") ∧
    (∃ p, (skirmish.heap p).id = "player" ∧
      Battle.chooseAction (fun _ => 1) (Battle.schedule insertionSort skirmish, []) 1
        = some (Battle.schedule insertionSort skirmish,
            [] ++ [{ source := 1, target := some p, type := BattleEventType.ATTACK }])) ∧
    (Battle.chooseAction (fun _ => 1) (Battle.schedule insertionSort skirmish, []) 1).map
        (fun s => s.2)
      = some [{ source := 1, target := some 0, type := BattleEventType.ATTACK }] ∧
    (Battle.chooseAction (fun _ => 1) (Battle.schedule insertionSort skirmish, []) 2).map
        (fun s => s.2)
      = some [{ source := 2, target := some 0, type := BattleEventType.ATTACK }] := by
  obtain ⟨p, _, _, _, hp, _, _, hstep, _⟩ :=
    C12_enemy_attacks_player insertionSort insertionSort_contract (fun _ => 1) skirmish
      ⟨0, by decide, by decide⟩
  exact ⟨insertionSort_contract, ⟨0, by decide, by decide⟩,
    ⟨p, hp, hstep _ [] 1 rfl rfl (by decide)⟩, by decide, by decide⟩

/-- C13: `run` as a state machine. With at most one combatant in the roster no
round runs: `run` returns the state it was given. With more than one, `run`
executes one round and then goes on from the state that round leaves (no
result if the round has none). And whenever `run` returns, the roster it
returns has at most one member. -/
theorem C13_run_state_machine (sort : (Ref → Ref → Bool) → List Ref → List Ref)
    (attack : Attack) (sel : Nat → Int) (w : State) :
    (w.combatants.length ≤ 1 → ∀ fuel, Battle.run sort attack sel fuel w = some w) ∧
    (1 < w.combatants.length → ∀ fuel,
      Battle.run sort attack sel (fuel + 1) w
        = (Battle.next_turn sort attack sel w).bind (Battle.run sort attack sel fuel)) ∧
    (∀ fuel w1, Battle.run sort attack sel fuel w = some w1 → w1.combatants.length ≤ 1) :=
  ⟨run_concluded sort attack sel w, run_in_progress sort attack sel w,
    fun fuel w1 => run_returns_concluded sort attack sel fuel w w1⟩

/-- C13 at the scenario of the player and the goblin: with two combatants `run`
does not return without a round, it returns after one round, and then the
roster has one member. -/
theorem C13_run_state_machine_witness :
    (Battle.run insertionSort tenDamage (fun _ => 1) 0 (duel true)).isNone = true ∧
    (Battle.run insertionSort tenDamage (fun _ => 1) 1 (duel true)).map
      (fun w => w.combatants) = some [0] ∧
    (∀ w1, Battle.run insertionSort tenDamage (fun _ => 1) 1 (duel true) = some w1 →
      w1.combatants.length ≤ 1) :=
  ⟨by decide, by decide,
    fun w1 => (C13_run_state_machine insertionSort tenDamage (fun _ => 1) (duel true)).2.2 1 w1⟩

/-- C14 (code at the failing input): a player with 10 health and two goblins, every
attack dealing 10. The roster holds exactly one player at construction. In the
first round the first goblin slays the player, and the round leaves the two
goblins: more than one combatant and no player. `run` therefore executes a
second round, in which the lookup of the player has no result: the round has
none, and `run` returns nothing however many rounds it is given. -/
theorem C14_player_slain_lookup_fails :
    (frailBattle.combatants.filter (isPlayer frailBattle.heap)).length = 1 ∧
    (Battle.next_turn insertionSort tenDamage (fun _ => 1) frailBattle).map
        (fun w => (w.combatants, (w.combatants.filter (isPlayer w.heap)).length, w.out))
      = some ([1, 2], 0, ["Goblin (1) attacks Player for 10 damage!", "Player is slain!"]) ∧
    ((Battle.next_turn insertionSort tenDamage (fun _ => 1) frailBattle).bind
        (Battle.next_turn insertionSort tenDamage (fun _ => 1))).isNone = true ∧
    (∀ fuel, Battle.run insertionSort tenDamage (fun _ => 1) fuel frailBattle = none) := by
  have h1 : (Battle.next_turn insertionSort tenDamage (fun _ => 1) frailBattle).map
        (fun w => (w.combatants, (w.combatants.filter (isPlayer w.heap)).length, w.out))
      = some ([1, 2], 0, ["Goblin (1) attacks Player for 10 damage!", "Player is slain!"]) := by
    decide
  have h2 : ((Battle.next_turn insertionSort tenDamage (fun _ => 1) frailBattle).bind
        (Battle.next_turn insertionSort tenDamage (fun _ => 1))).isNone = true := by
    decide
  refine ⟨by decide, h1, h2, ?_⟩
  intro fuel
  have hl : 1 < frailBattle.combatants.length := by decide
  cases fuel with
  | zero => simp [Battle.run, hl]
  | succ n =>
    rw [run_in_progress _ _ _ _ hl]
    cases hn : Battle.next_turn insertionSort tenDamage (fun _ => 1) frailBattle with
    | none => rfl
    | some w1 =>
      rw [hn] at h1 h2
      simp only [Option.map_some', Option.some.injEq, Prod.mk.injEq] at h1
      simp only [Option.some_bind, Option.isNone_iff_eq_none] at h2
      have hl1 : 1 < w1.combatants.length := by rw [h1.1]; decide
      cases n with
      | zero => simp [Battle.run, hl1]
      | succ m =>
        simp only [Option.some_bind]
        rw [run_in_progress _ _ _ _ hl1, h2]
        rfl

/-- C15 (code at the scenario): roster [Player (health 20, agility 5), Goblin
(health 10, agility 3)], the player choosing Attack and the first listed
target, every attack dealing 10. `run` returns after exactly one round (not
without a round, and with one round) with the roster [player], but the lines
name the goblin "Goblin (0)" (or "Goblin (1)", by the evaluation order of line
94), not "Goblin": the lines "Player attacks Goblin for 10 damage!" and
"Goblin is slain!" are not written. The goblin, being slower, acts first. -/
theorem C15_scenario_lines :
    (Battle.run insertionSort tenDamage (fun _ => 1) 0 (duel true)).isNone = true ∧
    (Battle.run insertionSort tenDamage (fun _ => 1) 1 (duel true)).map
        (fun w => (w.combatants, w.out))
      = some ([0], ["Goblin (0) attacks Player for 10 damage!",
                    "Player attacks Goblin (0) for 10 damage!",
                    "Goblin (0) is slain!"]) ∧
    (Battle.run insertionSort tenDamage (fun _ => 1) 1 (duel false)).map
        (fun w => (w.combatants, w.out))
      = some ([0], ["Goblin (1) attacks Player for 10 damage!",
                    "Player attacks Goblin (1) for 10 damage!",
                    "Goblin (1) is slain!"]) ∧
    (Battle.run insertionSort tenDamage (fun _ => 1) 1 (duel true)).map
        (fun w => (decide ("Player attacks Goblin for 10 damage!" ∈ w.out),
          decide ("Goblin is slain!" ∈ w.out)))
      = some (false, false) := by
  refine ⟨?_, ?_, ?_, ?_⟩ <;> decide

/-- C16 (code at the failing input): in the scenario of the player (agility 5) and
the goblin (agility 3) the queue holds the goblin's action first and the
player's second: the first action resolved is that of the slowest combatant,
and the agility of the sources goes up along the queue, not down. -/
theorem C16_slowest_goes_first :
    (Battle.enqueued insertionSort (fun _ => 1) (duel true)).map
        (fun s => s.2.map (fun e => (e.source, ((duel true).heap e.source).agility)))
      = some [(1, 3), (0, 5)] ∧
    ((duel true).heap 1).agility < ((duel true).heap 0).agility ∧
    (Battle.next_turn insertionSort tenDamage (fun _ => 1) (duel true)).map
        (fun w => w.out.head?)
      = some (some "Goblin (0) attacks Player for 10 damage!") := by
  refine ⟨?_, ?_, ?_⟩ <;> decide

/-- C17 (as stated, refuted), two rounds with every attack dealing 10.
First: the roster lists the player (health 10) twice, before two goblins; the
player defends. The attack A of the first goblin leaves the player's health at
0 and removes the first entry of the player; the second entry stays, so the
attack B of the second goblin on the same target writes a damage line and a
second "Player is slain!".
Second: distinct combatants, the player entering with health 0 and attacking
the first goblin, which is slain; the attack A of that goblin on the player is
skipped and so leaves the player's health at 0, the player being in the
roster; the attack B of the second goblin on the player writes a damage
line. -/
theorem C17_second_attack_still_resolved :
    (Battle.next_turn insertionSort tenDamage (fun _ => 2) playerTwice).map
        (fun w => (w.out, w.combatants))
      = some (["Player defends!", "Player defends!",
               "Goblin (1) attacks Player for 10 damage!", "Player is slain!",
               "Goblin (2) attacks Player for 10 damage!", "Player is slain!"], [1, 2]) ∧
    (Battle.enqueued insertionSort attackSecond spentBattle).map (fun s => s.2)
      = some [{ source := 0, target := some 1, type := BattleEventType.ATTACK },
              { source := 1, target := some 0, type := BattleEventType.ATTACK },
              { source := 2, target := some 0, type := BattleEventType.ATTACK }] ∧
    (Battle.next_turn insertionSort tenDamage attackSecond spentBattle).map
        (fun w => (w.out, w.combatants))
      = some (["Player attacks Goblin (1) for 10 damage!", "Goblin (1) is slain!",
               "Goblin (2) attacks Player for 10 damage!", "Player is slain!"], [2]) := by
  refine ⟨?_, ?_, ?_⟩ <;> decide

/-- C17 (amended): let A and B be Attack actions on the same target `t`, which
stands exactly once in the roster when A is dequeued, and let A be carried out
(its source is in the roster). If the state `w1` that A leaves has the health
of `t` at zero or below, then after any actions resolved in between, B is
skipped: resolving B returns the state unchanged (no damage line, no second
"is slain!" line, no health and no roster entry changed), and the loop goes on
with the rest of the queue. -/
theorem C17_attack_on_slain_target_skipped (attack : Attack) (w w1 w2 : State)
    (A B : BattleEvent) (t : Ref) (between rest : List BattleEvent)
    (hA : A.type = BattleEventType.ATTACK) (hAt : A.target = some t)
    (hB : B.type = BattleEventType.ATTACK) (hBt : B.target = some t)
    (hsrc : A.source ∈ w.combatants) (honce : w.combatants.count t = 1)
    (hres : Battle.resolve attack w A = some w1) (hdead : (w1.heap t).hp ≤ 0)
    (hbetween : Battle.processEvents attack w1 between = some w2) :
    Battle.resolve attack w2 B = some w2 ∧
    Battle.processEvents attack w2 (B :: rest) = Battle.processEvents attack w2 rest := by
  have ht : t ∈ w.combatants := List.count_pos_iff.mp (by omega)
  have h1 : t ∉ w1.combatants := by
    rw [resolve_attack attack w A t hA hsrc hAt ht] at hres
    cases hres
    by_cases hp : ((attack w.heap A.source t).2 t).hp ≤ 0
    · rw [if_pos hp, kill_present _ t (by exact ht)]
      intro hmem
      have hc : 0 < (w.combatants.erase t).count t := List.count_pos_iff.mpr hmem
      rw [List.count_erase_self] at hc
      omega
    · rw [if_neg hp] at hdead
      exact absurd hdead hp
  have h2 : t ∉ w2.combatants := by
    obtain ⟨w3, h3, hs3⟩ := processEvents_sublist attack between w1
    rw [h3] at hbetween
    cases hbetween
    exact fun hmem => h1 (hs3.subset hmem)
  have h3 : Battle.resolve attack w2 B = some w2 :=
    resolve_skip attack w2 B hB (Or.inr (fun t1 ht1 => by
      rw [hBt] at ht1; cases ht1; exact h2))
  refine ⟨h3, ?_⟩
  rw [Battle.processEvents, h3]

/-- C17 (amended), at the two goblins and the slime: the first goblin slays the
slime, the attack of the second goblin on the slime is skipped. -/
theorem C17_attack_on_slain_target_skipped_witness :
    (0 : Ref) ∈ threeFoes.combatants ∧ threeFoes.combatants.count 2 = 1 ∧
    (slimeSlain.heap 2).hp ≤ 0 ∧
    (Battle.resolve tenDamage slimeSlain
        { source := 1, target := some 2, type := BattleEventType.ATTACK } = some slimeSlain ∧
      Battle.processEvents tenDamage slimeSlain
          [{ source := 1, target := some 2, type := BattleEventType.ATTACK }]
        = Battle.processEvents tenDamage slimeSlain []) ∧
    (Battle.processEvents tenDamage threeFoes
        [{ source := 0, target := some 2, type := BattleEventType.ATTACK },
         { source := 1, target := some 2, type := BattleEventType.ATTACK }]).map
      (fun w => (w.combatants, w.out))
      = some ([0, 1], ["Goblin attacks Slime for 10 damage!", "Slime is slain!"]) := by
  have hres : Battle.resolve tenDamage threeFoes
      { source := 0, target := some 2, type := BattleEventType.ATTACK } = some slimeSlain := by
    rw [resolve_attack tenDamage threeFoes _ 2 rfl (by decide) rfl (by decide)]
    rw [if_pos (by decide), kill_present _ 2 (by decide)]
    rfl
  exact ⟨by decide, by decide, by decide,
    C17_attack_on_slain_target_skipped tenDamage threeFoes slimeSlain slimeSlain
      { source := 0, target := some 2, type := BattleEventType.ATTACK }
      { source := 1, target := some 2, type := BattleEventType.ATTACK } 2 [] []
      rfl rfl rfl rfl (by decide) (by decide) hres (by decide) rfl,
    by decide⟩

/-- C18 (as stated, refuted): a player with 100 health and two goblins, every attack
dealing 10, the player attacking the first listed target. The round starts
with three combatants and leaves two (the first goblin is slain): the battle
is not ended and the size of the roster has changed. -/
theorem C18_round_shrinks_roster :
    sturdyBattle.combatants.length = 3 ∧
    (Battle.next_turn insertionSort tenDamage (fun _ => 1) sturdyBattle).map
        (fun w => (w.combatants, w.combatants.length, w.out))
      = some ([2, 0], 2,
          ["Goblin (1) attacks Player for 10 damage!",
           "Goblin (2) attacks Player for 10 damage!",
           "Player attacks Goblin (1) for 10 damage!",
           "Goblin (1) is slain!"]) := by
  constructor <;> decide

/-- C18 (amended): a round never adds a combatant: the roster it leaves is a
sub-sequence of the speed-sorted roster of its start, so the roster afterwards
is at most as large as before (it may shrink without ending the battle). -/
theorem C18_round_never_grows (sort : (Ref → Ref → Bool) → List Ref → List Ref)
    (hsort : StdSortContract sort) (attack : Attack) (sel : Nat → Int) (w w1 : State)
    (h : Battle.next_turn sort attack sel w = some w1) :
    w1.combatants.Sublist (Battle.schedule sort w).combatants ∧
    w1.combatants.length ≤ w.combatants.length := by
  have hs := next_turn_sublist sort attack sel w w1 h
  refine ⟨hs, ?_⟩
  rw [← (hsort w.heap w.combatants).1.length_eq]
  exact hs.length_le

/-- C18 (amended), at the sturdy player and the two goblins. -/
theorem C18_round_never_grows_witness :
    StdSortContract insertionSort ∧
    (Battle.next_turn insertionSort tenDamage (fun _ => 1) sturdyBattle).map
        (fun w => w.combatants) = some [2, 0] ∧
    (∀ w1, Battle.next_turn insertionSort tenDamage (fun _ => 1) sturdyBattle = some w1 →
      w1.combatants.Sublist (Battle.schedule insertionSort sturdyBattle).combatants ∧
      w1.combatants.length ≤ sturdyBattle.combatants.length) :=
  ⟨insertionSort_contract, by decide,
    fun w1 h => C18_round_never_grows insertionSort insertionSort_contract tenDamage
      (fun _ => 1) sturdyBattle w1 h⟩

/-- C19: for every roster, whatever the names and however often a name or a
combatant is listed, after construction every non-player combatant of the
roster carries a name of the form name + " (k)", and two different non-player
combatants of the roster carry different display names; so for a roster of
distinct combatants the list of the display names of its non-player entries
has no repetition. -/
theorem C19_enemy_names_distinct (ord : Bool) (heap : Heap) (roster : List Ref) :
    (∀ x ∈ roster, (heap x).id ≠ "player" →
      ∃ (n : String) (k : Nat), ((Battle.Battle ord heap roster).heap x).name = n ++ " (" ++ toString k ++ ")") ∧
    (∀ x ∈ roster, ∀ y ∈ roster, (heap x).id ≠ "player" → (heap y).id ≠ "player" → x ≠ y →
      ((Battle.Battle ord heap roster).heap x).name
        ≠ ((Battle.Battle ord heap roster).heap y).name) ∧
    (roster.Nodup →
      (((Battle.Battle ord heap roster).combatants.filter
          (fun r => !isPlayer (Battle.Battle ord heap roster).heap r)).map
        (fun r => ((Battle.Battle ord heap roster).heap r).name)).Nodup) := by
  obtain ⟨ha, _, _, hd, he⟩ := Battle_rename_inv ord heap roster
  have hmem : ∀ x, x ∈ roster → x ∈ roster.reverse ++ [] := by
    intro x hx; simpa using hx
  have hdist : ∀ x ∈ roster, ∀ y ∈ roster, (heap x).id ≠ "player" → (heap y).id ≠ "player" →
      x ≠ y → ((Battle.Battle ord heap roster).heap x).name
        ≠ ((Battle.Battle ord heap roster).heap y).name :=
    fun x hx y hy hpx hpy hxy => he x (hmem x hx) y (hmem y hy) hpx hpy hxy
  refine ⟨?_, hdist, ?_⟩
  · intro x hx hp
    obtain ⟨n, k, _, hn, _, _⟩ := hd x (hmem x hx) hp
    refine ⟨n, k, ?_⟩
    show ((roster.foldl Battle.rename (heap, Battle.seedNames ord heap roster)).1 x).name = _
    rw [hn, suffixed, String.append_assoc, String.append_assoc, String.append_assoc]
  · intro hnd
    have hc : (Battle.Battle ord heap roster).combatants = roster := rfl
    rw [hc]
    apply List.Nodup.map_on _ (hnd.filter _)
    intro x hx y hy hxy
    rw [List.mem_filter] at hx hy
    by_contra hne
    have hidx : ((Battle.Battle ord heap roster).heap x).id = (heap x).id := ha x
    have hidy : ((Battle.Battle ord heap roster).heap y).id = (heap y).id := ha y
    have hpx : (heap x).id ≠ "player" := by
      have := hx.2; simp [isPlayer, hidx] at this; exact this
    have hpy : (heap y).id ≠ "player" := by
      have := hy.2; simp [isPlayer, hidy] at this; exact this
    exact hdist x hx.1 y hy.1 hpx hpy hne hxy

/-- C19 at the roster that lists the first of two goblins twice: the two goblins
end as "Goblin (1)" and "Goblin (2)"; and for the roster of two goblins and a
slime the list of names has no repetition. -/
theorem C19_enemy_names_distinct_witness :
    (Battle.Battle true goblinsAndNamesake echoRoster).displayNames
      = ["Goblin (1)", "Goblin (1)", "Goblin (2)"] ∧
    ((Battle.Battle true goblinsAndNamesake echoRoster).heap 0).name
      ≠ ((Battle.Battle true goblinsAndNamesake echoRoster).heap 1).name ∧
    (Battle.Battle true goblinsAndSlime [0, 1, 2]).displayNames.Nodup :=
  ⟨by decide,
    (C19_enemy_names_distinct true goblinsAndNamesake echoRoster).2.1 0 (by decide) 1
      (by decide) (by decide) (by decide) (by decide),
    by decide⟩

/-- C20 (as stated, refuted): the roster [player, goblin, goblin] that lists the same
goblin twice, every combatant with health above zero, every attack taking 10
health from its target only, the player attacking the goblin. The goblin is
slain and its first entry removed; its second entry stays, so the round
returns the roster [player, goblin] in which the goblin has health 0. -/
theorem C20_listed_twice_stays_when_slain :
    ChangesOnlyTarget tenDamage ∧
    (∀ r ∈ goblinTwice.combatants, 0 < (goblinTwice.heap r).hp) ∧
    (Battle.next_turn insertionSort tenDamage attackSecond goblinTwice).map
        (fun w => (w.combatants, w.combatants.map (fun r => (w.heap r).hp)))
      = some ([0, 1], [80, 0]) :=
  ⟨tenDamage_changesOnlyTarget, by decide, by decide⟩

/-- C20 (amended): for a roster of distinct combatants and a damage model that
changes no creature but the target: if every combatant of the roster has
health above zero at the start of `next_turn`, then so has every combatant of
the roster that `next_turn` returns, and that roster is a sub-sequence of the
speed-sorted roster of the start of the round. -/
theorem C20_round_keeps_the_living (sort : (Ref → Ref → Bool) → List Ref → List Ref)
    (hsort : StdSortContract sort) (attack : Attack) (hattack : ChangesOnlyTarget attack)
    (sel : Nat → Int) (w w1 : State) (hnd : w.combatants.Nodup)
    (halive : ∀ r ∈ w.combatants, 0 < (w.heap r).hp)
    (h : Battle.next_turn sort attack sel w = some w1) :
    (∀ r ∈ w1.combatants, 0 < (w1.heap r).hp) ∧
    w1.combatants.Sublist (Battle.schedule sort w).combatants := by
  refine ⟨?_, next_turn_sublist sort attack sel w w1 h⟩
  have hperm := (hsort w.heap w.combatants).1
  unfold Battle.next_turn at h
  cases hq : Battle.enqueued sort sel w with
  | none => rw [hq] at h; cases h
  | some s =>
    obtain ⟨s1, evs⟩ := s
    rw [hq] at h
    simp only at h
    obtain ⟨hh, hc, _⟩ := collect_some sel _ _ _ _ _ hq
    have hs1 : AllAlive s1 := by
      refine ⟨?_, ?_⟩
      · rw [hc]; exact hperm.nodup_iff.mpr hnd
      · intro r hr
        rw [hc] at hr
        rw [hh]
        exact halive r (hperm.mem_iff.mp hr)
    exact (processEvents_allAlive attack hattack evs s1 w1 hs1 h).2

/-- C20 (amended), at the sturdy player and the two goblins: the round returns the
second goblin and the player, with health 10 and 80. -/
theorem C20_round_keeps_the_living_witness :
    StdSortContract insertionSort ∧ ChangesOnlyTarget tenDamage ∧
    sturdyBattle.combatants.Nodup ∧
    (∀ r ∈ sturdyBattle.combatants, 0 < (sturdyBattle.heap r).hp) ∧
    (Battle.next_turn insertionSort tenDamage (fun _ => 1) sturdyBattle).map
        (fun w => (w.combatants, w.combatants.map (fun r => (w.heap r).hp)))
      = some ([2, 0], [10, 80]) ∧
    (∀ w1, Battle.next_turn insertionSort tenDamage (fun _ => 1) sturdyBattle = some w1 →
      (∀ r ∈ w1.combatants, 0 < (w1.heap r).hp) ∧
      w1.combatants.Sublist (Battle.schedule insertionSort sturdyBattle).combatants) :=
  ⟨insertionSort_contract, tenDamage_changesOnlyTarget, by decide, by decide, by decide,
    fun w1 h => C20_round_keeps_the_living insertionSort insertionSort_contract tenDamage
      tenDamage_changesOnlyTarget (fun _ => 1) sturdyBattle w1 (by decide) (by decide) h⟩

end RPG
